import Mathlib

/-!
# File-system backed OAuth server repository (`pkg/oauth/file_repository.go`)

A shallow embedding of `FileSystemRepository` and of its constructor
`NewFileSystemRepository`, followed by the properties proved about them.

Conventions of the embedding

* A Go `map[string]*OAuth` is a finite list of key/value pairs without repeated
  keys (`GoMap`).  The order of that list carries no meaning: every `range`
  loop over a map takes the order of iteration as an explicit argument, and the
  theorems quantify over every enumeration of the entries (`GoMap.IterOrder`).
* A `*OAuth` stored in the repository is modelled by the value it points to,
  and no caller writes through such a pointer during the calls under study.
  A repository state is any mapping of this kind: `Add` stores the caller's
  pointer, so a caller that later renames the definition leaves it under its
  old key, and the key of an entry need not be the `Name` of its value.
* A Go result `(x, err)` is a pair of options, `none` standing for `nil`.
* `r.Lock()` / `defer r.Unlock()` bracket the body of `Add` and `Remove`; in a
  sequential run the mutex is free on entry and free again on return, so the
  pair leaves no trace in the state and the state is the mapping alone.
* Logging calls have no effect on the results and are left out.
* The file system, `filepath.Join` and `json.Unmarshal` are supplied by an
  environment (`Env`); the paths handed to `ioutil.ReadFile` are recorded in
  call order in the result of the constructor.
-/

namespace oauth

/-! ## Values coming from outside the file -/

/-- Go `error` values seen by this file: the package sentinel
`ErrOauthServerNotFound`, and the errors produced by `ioutil.ReadDir`,
`ioutil.ReadFile` and `json.Unmarshal`, told apart by their text. -/
inductive GoError where
  | ErrOauthServerNotFound
  | fsFailure (detail : String)
  | jsonFailure (detail : String)
  deriving DecidableEq

/-- Modelled from the spec: the target of `Endpoints.Token`, declared outside
`file_repository.go`; only `UpstreamURL` (a string) is read by this file. -/
structure Definition where
  UpstreamURL : String
  deriving DecidableEq

/-- Modelled from the spec: the `Endpoints` part of an `OAuth` definition,
declared outside `file_repository.go`; only `Token` is read by this file. -/
structure Endpoints where
  Token : Definition
  deriving DecidableEq

/-- Modelled from the spec: the `OAuth` server definition, declared outside
`file_repository.go`.  `Name` is the primary key, `Endpoints.Token.UpstreamURL`
the secondary lookup key, and `Rest` stands for all remaining configuration
fields, which this file passes through untouched. -/
structure OAuth where
  Name : String
  Endpoints : Endpoints
  Rest : String
  deriving DecidableEq

/-- The value of `&OAuth{}`: every field at its zero value. -/
def OAuth.zero : OAuth := ⟨"", ⟨⟨""⟩⟩, ""⟩

/-- A `url.URL`, observed by this file only through its `String()` form. -/
structure URL where
  text : String
  deriving DecidableEq

/-- The Go method `url.String()`. -/
def URL.String (u : URL) : String := u.text

/-- A Go `[]byte`. -/
abbrev Bytes := List (Fin 256)

/-! ## Go maps with string keys -/

/-- A Go `map[string]V`: finitely many entries, at most one per key. -/
structure GoMap (V : Type) where
  entries : List (String × V)
  nodup : (entries.map Prod.fst).Nodup

namespace GoMap

variable {V : Type}

/-- The result of `make(map[string]V)`. -/
def empty : GoMap V := ⟨[], List.nodup_nil⟩

/-- The entries of a list that are not stored under key `k`. -/
def dropKey (k : String) (l : List (String × V)) : List (String × V) :=
  l.filter (fun e => !(e.1 == k))

/-- The comma-ok lookup `v, ok := m[k]`: `some v` when `ok`, `none` otherwise. -/
def get (m : GoMap V) (k : String) : Option V :=
  (m.entries.find? (fun e => e.1 == k)).map Prod.snd

/-- The assignment `m[k] = v`: the entry under `k` is created or overwritten. -/
def set (m : GoMap V) (k : String) (v : V) : GoMap V :=
  ⟨dropKey k m.entries ++ [(k, v)], by
    rw [List.map_append, List.nodup_append]
    refine ⟨((List.filter_sublist m.entries).map Prod.fst).nodup m.nodup, by simp, ?_⟩
    intro a ha hb
    have hak : a = k := by simpa using hb
    rcases List.mem_map.1 ha with ⟨e, he, hk⟩
    have hne := (List.mem_filter.1 he).2
    simp [hk, hak] at hne⟩

/-- The builtin `delete(m, k)`: a no-op when `k` is not a key. -/
def delete (m : GoMap V) (k : String) : GoMap V :=
  ⟨dropKey k m.entries, ((List.filter_sublist m.entries).map Prod.fst).nodup m.nodup⟩

/-- The key set membership test: `k` is a key of `m`. -/
def HasKey (m : GoMap V) (k : String) : Prop := k ∈ m.entries.map Prod.fst

/-- An order in which a `range` loop may visit the map: an enumeration of its
entries, each exactly once.  Go leaves the choice among them unspecified. -/
def IterOrder (m : GoMap V) (it : List (String × V)) : Prop := it.Perm m.entries

end GoMap

/-! ## The repository -/

/-- The struct `FileSystemRepository`: the `servers` mapping (the embedded
mutex is free between calls, see the conventions above). -/
structure FileSystemRepository where
  servers : GoMap OAuth

namespace FileSystemRepository

/-- The method `FindAll`: `var servers []*OAuth`, then one `append` per entry visited by
`for _, server := range r.servers`, visited in the order `it`; the error is
always `nil`. -/
def FindAll (_r : FileSystemRepository) (it : List (String × OAuth)) :
    List OAuth × Option GoError :=
  (it.foldl (fun servers e => servers ++ [e.2]) [], none)

/-- The method `FindByName`: comma-ok lookup, `(nil, ErrOauthServerNotFound)` when the key
is missing, `(server, nil)` otherwise. -/
def FindByName (r : FileSystemRepository) (name : String) :
    Option OAuth × Option GoError :=
  match r.servers.get name with
  | none => (none, some GoError.ErrOauthServerNotFound)
  | some server => (some server, none)

/-- The method `Add`: `r.servers[server.Name] = server`, returning `nil`. -/
def Add (r : FileSystemRepository) (server : OAuth) :
    FileSystemRepository × Option GoError :=
  (⟨r.servers.set server.Name server⟩, none)

/-- The method `Remove`: `delete(r.servers, name)`, returning `nil`. -/
def Remove (r : FileSystemRepository) (name : String) :
    FileSystemRepository × Option GoError :=
  (⟨r.servers.delete name⟩, none)

/-- The loop of `FindByTokenURL` over the entries still to be visited: return
the first server whose upstream token URL is `s`, else fall out of the loop. -/
def scanTokenURL (s : String) : List (String × OAuth) → Option OAuth × Option GoError
  | [] => (none, some GoError.ErrOauthServerNotFound)
  | e :: rest =>
    if e.2.Endpoints.Token.UpstreamURL = s then (some e.2, none)
    else scanTokenURL s rest

/-- The method `FindByTokenURL`: `for _, server := range r.servers` in the order `it`,
comparing `server.Endpoints.Token.UpstreamURL` with `url.String()`. -/
def FindByTokenURL (_r : FileSystemRepository) (it : List (String × OAuth)) (url : URL) :
    Option OAuth × Option GoError :=
  scanTokenURL url.String it

end FileSystemRepository

/-! ## Construction from a directory -/

/-- The collaborators of `NewFileSystemRepository`: `ioutil.ReadDir` (the names
of the entries it lists, in listing order), `ioutil.ReadFile`, `filepath.Join`
and `json.Unmarshal` into an `*OAuth` (the value left in the target, and the
error). -/
structure Env where
  ReadDir : String → Except GoError (List String)
  ReadFile : String → Except GoError Bytes
  Join : String → String → String
  Unmarshal : Bytes → OAuth → OAuth × Option GoError

/-- The Go function `strings.Contains(s, substr)`. -/
def stringsContains (s substr : String) : Bool :=
  decide (substr.data <:+: s.data)

/-- The method `parseDefinition`: unmarshal into a fresh `&OAuth{}`; an error is logged
and the target is returned whatever happened. -/
def parseDefinition (env : Env) (apiDef : Bytes) : OAuth :=
  (env.Unmarshal apiDef OAuth.zero).1

/-- What `NewFileSystemRepository` hands back: the repository pointer, the
error, and the paths passed to `ioutil.ReadFile` in call order. -/
structure LoadResult where
  repo : Option FileSystemRepository
  err : Option GoError
  reads : List String

/-- The body of `for _, f := range files` in `NewFileSystemRepository`, run on
the entries still to be visited, from repository `repo` and with `reads` the
paths read so far. -/
def loadFiles (env : Env) (dir : String) :
    List String → FileSystemRepository → List String → LoadResult
  | [], repo, reads => ⟨some repo, none, reads⟩
  | f :: rest, repo, reads =>
    if stringsContains f ".json" then
      let filePath := env.Join dir f
      match env.ReadFile filePath with
      | Except.error err => ⟨none, some err, reads ++ [filePath]⟩
      | Except.ok appConfigBody =>
        let definition := parseDefinition env appConfigBody
        match repo.Add definition with
        | (_, some err) => ⟨none, some err, reads ++ [filePath]⟩
        | (repo1, none) => loadFiles env dir rest repo1 (reads ++ [filePath])
    else loadFiles env dir rest repo reads

/-- The constructor `NewFileSystemRepository`: start from an empty mapping, list the directory,
and load every entry whose name contains `.json`. -/
def NewFileSystemRepository (env : Env) (dir : String) : LoadResult :=
  let repo : FileSystemRepository := ⟨GoMap.empty⟩
  match env.ReadDir dir with
  | Except.error err => ⟨none, some err, []⟩
  | Except.ok files => loadFiles env dir files repo []

/-! ## Sequences of calls -/

/-- A mutating call made on a repository: `Add(server)` or `Remove(name)`. -/
inductive Call where
  | add (server : OAuth)
  | remove (name : String)

namespace FileSystemRepository

/-- The caller `for _, d := range ds { r.Add(d) }`: the definitions of `ds` are
added one after the other, first to last. -/
def addAll (r : FileSystemRepository) (ds : List OAuth) : FileSystemRepository :=
  ds.foldl (fun acc d => (acc.Add d).1) r

/-- Every entry of the mapping sits under the key that is the `Name` of the
definition stored there. -/
def KeyedByName (r : FileSystemRepository) : Prop :=
  ∀ e ∈ r.servers.entries, e.1 = e.2.Name

/-- The repository left by one call. -/
def step (r : FileSystemRepository) : Call → FileSystemRepository
  | Call.add server => (r.Add server).1
  | Call.remove name => (r.Remove name).1

/-- The repository left by a sequence of calls made one after the other. -/
def run (r : FileSystemRepository) (calls : List Call) : FileSystemRepository :=
  calls.foldl step r

end FileSystemRepository

/-- The names of a listing that pass the test `strings.Contains(name, ".json")`,
in listing order. -/
def jsonNames (files : List String) : List String :=
  files.filter (fun f => stringsContains f ".json")

/-- The definitions `parseDefinition` yields for the `.json` entries of a
listing whose read succeeds, in listing order. -/
def parsedDefinitions (env : Env) (dir : String) (files : List String) : List OAuth :=
  (jsonNames files).filterMap (fun f =>
    match env.ReadFile (env.Join dir f) with
    | Except.ok body => some (parseDefinition env body)
    | Except.error _ => none)

/-! ## Sample values used to instantiate the theorems -/

namespace Sample

/-- A definition named `a`. -/
def oldA : OAuth := ⟨"a", ⟨⟨"http://auth.one/token"⟩⟩, "v1"⟩

/-- Another definition named `a`. -/
def newA : OAuth := ⟨"a", ⟨⟨"http://auth.two/token"⟩⟩, "v2"⟩

/-- A definition named `b`. -/
def defB : OAuth := ⟨"b", ⟨⟨"http://auth.b/token"⟩⟩, "v1"⟩

/-- The repository right after `make(map[string]*OAuth)`. -/
def emptyRepo : FileSystemRepository := ⟨GoMap.empty⟩

/-- A repository holding `defB` under its name. -/
def repoB : FileSystemRepository := ⟨⟨[("b", defB)], by simp⟩⟩

/-- A repository whose only entry sits under the key `x` while the definition
stored there is named `a`: the state left by `Add(d)` with `d.Name == "x"`
followed by the caller's `d.Name = "a"`. -/
def aliased : FileSystemRepository := ⟨⟨[("x", oldA)], by simp⟩⟩

/-- A stand-in for `json.Unmarshal`: the one-byte documents `[0]` and `[1]`
decode to `oldA` and `defB`; anything else is rejected and the target is left
as it was. -/
def unmarshal (body : Bytes) (target : OAuth) : OAuth × Option GoError :=
  if body = [0] then (oldA, none)
  else if body = [1] then (defB, none)
  else (target, some (GoError.jsonFailure "invalid character"))

/-- A stand-in for `filepath.Join` on two clean elements. -/
def join (dir name : String) : String := dir ++ "/" ++ name

/-- A directory `conf` listing `a.json`, `b.json` and `readme.txt`, where the
two `.json` files can be read and `readme.txt` cannot. -/
def confEnv : Env where
  ReadDir := fun d =>
    if d = "conf" then Except.ok ["a.json", "b.json", "readme.txt"]
    else Except.error (GoError.fsFailure "no such file or directory")
  ReadFile := fun path =>
    if path = "conf/a.json" then Except.ok [0]
    else if path = "conf/b.json" then Except.ok [1]
    else Except.error (GoError.fsFailure "permission denied")
  Join := join
  Unmarshal := unmarshal

/-- The directory of `confEnv` without `readme.txt` in its listing, and where
reading `conf/readme.txt` would succeed. -/
def confEnvJsonOnly : Env where
  ReadDir := fun d =>
    if d = "conf" then Except.ok ["a.json", "b.json"]
    else Except.error (GoError.fsFailure "no such file or directory")
  ReadFile := fun path =>
    if path = "conf/a.json" then Except.ok [0]
    else if path = "conf/b.json" then Except.ok [1]
    else if path = "conf/readme.txt" then Except.ok [7]
    else Except.error (GoError.fsFailure "permission denied")
  Join := join
  Unmarshal := unmarshal

/-- A directory `conf` listing `a.json`, `broken.json` and `b.json`, where
`broken.json` cannot be read. -/
def brokenEnv : Env where
  ReadDir := fun d =>
    if d = "conf" then Except.ok ["a.json", "broken.json", "b.json"]
    else Except.error (GoError.fsFailure "no such file or directory")
  ReadFile := fun path =>
    if path = "conf/a.json" then Except.ok [0]
    else if path = "conf/b.json" then Except.ok [1]
    else Except.error (GoError.fsFailure "permission denied")
  Join := join
  Unmarshal := unmarshal

/-- A stand-in for `json.Unmarshal` in which two different documents, `[0]`
and `[2]`, both decode to a definition named `a` (`oldA` and `newA`). -/
def unmarshalSameName (body : Bytes) (target : OAuth) : OAuth × Option GoError :=
  if body = [0] then (oldA, none)
  else if body = [2] then (newA, none)
  else (target, some (GoError.jsonFailure "invalid character"))

/-- A directory `conf` listing `first.json` and `second.json`, both readable,
whose contents both decode to a definition named `a`. -/
def sameNameEnv : Env where
  ReadDir := fun d =>
    if d = "conf" then Except.ok ["first.json", "second.json"]
    else Except.error (GoError.fsFailure "no such file or directory")
  ReadFile := fun path =>
    if path = "conf/first.json" then Except.ok [0]
    else if path = "conf/second.json" then Except.ok [2]
    else Except.error (GoError.fsFailure "permission denied")
  Join := join
  Unmarshal := unmarshalSameName

/-- A directory `conf` listing `a.json` and `bad.json`, both readable, where
the content of `bad.json` is rejected by `unmarshal`. -/
def lenientEnv : Env where
  ReadDir := fun d =>
    if d = "conf" then Except.ok ["a.json", "bad.json"]
    else Except.error (GoError.fsFailure "no such file or directory")
  ReadFile := fun path =>
    if path = "conf/a.json" then Except.ok [0]
    else if path = "conf/bad.json" then Except.ok [9]
    else Except.error (GoError.fsFailure "permission denied")
  Join := join
  Unmarshal := unmarshal

/-- Two definitions with different names and the same upstream token URL. -/
def sharedA : OAuth := ⟨"a", ⟨⟨"http://auth.shared/token"⟩⟩, "v1"⟩

/-- The second definition pointing at the shared upstream token URL. -/
def sharedB : OAuth := ⟨"b", ⟨⟨"http://auth.shared/token"⟩⟩, "v2"⟩

end Sample

end oauth

/-! ## Lemmas on Go maps -/

namespace oauth

namespace GoMap

variable {V : Type}

theorem find_key_eq_none_iff (l : List (String × V)) (k : String) :
    l.find? (fun e => e.1 == k) = none ↔ k ∉ l.map Prod.fst := by
  induction l with
  | nil => simp
  | cons e l ih =>
    by_cases h : e.1 = k
    · simp [List.find?_cons, h]
    · have h2 : ¬ k = e.1 := fun h3 => h h3.symm
      simp [List.find?_cons, h, h2, ih]

theorem find_key_eq_some_iff (l : List (String × V)) (hl : (l.map Prod.fst).Nodup)
    (k : String) (e : String × V) :
    l.find? (fun e => e.1 == k) = some e ↔ e ∈ l ∧ e.1 = k := by
  induction l with
  | nil => simp
  | cons a l ih =>
    have hl2 : (l.map Prod.fst).Nodup := (List.nodup_cons.1 (by simpa using hl)).2
    have ha : a.1 ∉ l.map Prod.fst := (List.nodup_cons.1 (by simpa using hl)).1
    by_cases h : a.1 = k
    · simp only [List.find?_cons, h, beq_self_eq_true, Option.some.injEq, List.mem_cons]
      constructor
      · rintro rfl; exact ⟨Or.inl rfl, h⟩
      · rintro ⟨h1 | h1, h2⟩
        · exact h1.symm
        · exact absurd (List.mem_map.2 ⟨e, h1, h2.trans h.symm⟩) ha
    · have hb : (a.1 == k) = false := by simpa using h
      simp only [List.find?_cons, hb, List.mem_cons]
      rw [ih hl2]
      constructor
      · rintro ⟨h1, h2⟩; exact ⟨Or.inr h1, h2⟩
      · rintro ⟨h1 | h1, h2⟩
        · exact absurd (h1 ▸ h2) h
        · exact ⟨h1, h2⟩

theorem get_eq_none_iff (m : GoMap V) (k : String) : m.get k = none ↔ ¬ m.HasKey k := by
  unfold get HasKey
  rw [Option.map_eq_none', find_key_eq_none_iff]

theorem get_eq_some_iff (m : GoMap V) (k : String) (v : V) :
    m.get k = some v ↔ (k, v) ∈ m.entries := by
  unfold get
  rw [Option.map_eq_some']
  constructor
  · rintro ⟨e, he, rfl⟩
    have := (find_key_eq_some_iff m.entries m.nodup k e).1 he
    rcases e with ⟨a, b⟩
    obtain ⟨h1, h2⟩ := this
    simp only at h2
    subst h2
    exact h1
  · intro h
    exact ⟨(k, v), (find_key_eq_some_iff m.entries m.nodup k (k, v)).2 ⟨h, rfl⟩, rfl⟩

theorem mem_dropKey (k : String) (l : List (String × V)) (e : String × V) :
    e ∈ dropKey k l ↔ e ∈ l ∧ e.1 ≠ k := by
  unfold dropKey
  simp [List.mem_filter]

theorem dropKey_of_not_mem (k : String) (l : List (String × V))
    (h : k ∉ l.map Prod.fst) : dropKey k l = l := by
  unfold dropKey
  rw [List.filter_eq_self]
  intro e he
  have : e.1 ≠ k := fun hek => h (List.mem_map.2 ⟨e, he, hek⟩)
  simpa using this

theorem mem_set_entries (m : GoMap V) (k : String) (v : V) (e : String × V) :
    e ∈ (m.set k v).entries ↔ (e ∈ m.entries ∧ e.1 ≠ k) ∨ e = (k, v) := by
  unfold set
  simp [List.mem_append, mem_dropKey]

theorem mem_delete_entries (m : GoMap V) (k : String) (e : String × V) :
    e ∈ (m.delete k).entries ↔ e ∈ m.entries ∧ e.1 ≠ k := by
  unfold delete
  simp [mem_dropKey]

theorem get_set_self (m : GoMap V) (k : String) (v : V) : (m.set k v).get k = some v := by
  rw [get_eq_some_iff, mem_set_entries]
  exact Or.inr rfl

theorem get_set_of_ne (m : GoMap V) (k k2 : String) (v : V) (h : k2 ≠ k) :
    (m.set k v).get k2 = m.get k2 := by
  cases hg : m.get k2 with
  | none =>
    rw [get_eq_none_iff] at hg ⊢
    intro hk
    apply hg
    rcases List.mem_map.1 hk with ⟨e, he, rfl⟩
    rcases (mem_set_entries m k v e).1 he with h1 | h1
    · exact List.mem_map.2 ⟨e, h1.1, rfl⟩
    · subst h1; exact absurd rfl h
  | some w =>
    rw [get_eq_some_iff] at hg ⊢
    exact (mem_set_entries m k v _).2 (Or.inl ⟨hg, h⟩)

theorem get_delete_self (m : GoMap V) (k : String) : (m.delete k).get k = none := by
  rw [get_eq_none_iff]
  intro hk
  rcases List.mem_map.1 hk with ⟨e, he, hek⟩
  exact ((mem_delete_entries m k e).1 he).2 hek

theorem delete_of_not_hasKey (m : GoMap V) (k : String) (h : ¬ m.HasKey k) :
    m.delete k = m := by
  have hd : dropKey k m.entries = m.entries := dropKey_of_not_mem k m.entries h
  cases m with
  | mk entries nodup =>
    simp only [delete, mk.injEq]
    exact hd

theorem set_entries_of_not_hasKey (m : GoMap V) (k : String) (v : V) (h : ¬ m.HasKey k) :
    (m.set k v).entries = m.entries ++ [(k, v)] := by
  unfold set
  simp only
  rw [dropKey_of_not_mem k m.entries h]

end GoMap

/-! ## Lemmas on the repository operations -/

namespace FileSystemRepository

theorem foldl_append_snd (it : List (String × OAuth)) (init : List OAuth) :
    it.foldl (fun servers e => servers ++ [e.2]) init = init ++ it.map Prod.snd := by
  induction it generalizing init with
  | nil => simp
  | cons e it ih => simp [List.foldl_cons, ih, List.append_assoc]

theorem FindAll_eq (r : FileSystemRepository) (it : List (String × OAuth)) :
    r.FindAll it = (it.map Prod.snd, none) := by
  unfold FindAll
  rw [foldl_append_snd]
  simp

theorem mem_FindAll (r : FileSystemRepository) (it : List (String × OAuth))
    (hit : r.servers.IterOrder it) (d : OAuth) :
    d ∈ (r.FindAll it).1 ↔ ∃ k, (k, d) ∈ r.servers.entries := by
  rw [FindAll_eq]
  simp only [List.mem_map]
  constructor
  · rintro ⟨e, he, rfl⟩
    exact ⟨e.1, (List.Perm.mem_iff hit).1 he⟩
  · rintro ⟨k, hk⟩
    exact ⟨(k, d), (List.Perm.mem_iff hit).2 hk, rfl⟩

theorem FindByName_eq_of_get (r : FileSystemRepository) (name : String) (d : OAuth)
    (h : r.servers.get name = some d) : r.FindByName name = (some d, none) := by
  unfold FindByName
  rw [h]

theorem FindByName_eq_of_get_none (r : FileSystemRepository) (name : String)
    (h : r.servers.get name = none) :
    r.FindByName name = (none, some GoError.ErrOauthServerNotFound) := by
  unfold FindByName
  rw [h]

theorem addAll_cons (r : FileSystemRepository) (d : OAuth) (ds : List OAuth) :
    r.addAll (d :: ds) = (r.Add d).1.addAll ds := rfl

theorem get_addAll_of_not_mem (r : FileSystemRepository) (ds : List OAuth) (k : String)
    (hk : k ∉ ds.map OAuth.Name) : (r.addAll ds).servers.get k = r.servers.get k := by
  induction ds generalizing r with
  | nil => rfl
  | cons d ds ih =>
    rw [addAll_cons, ih]
    · exact GoMap.get_set_of_ne r.servers d.Name k d
        (fun h => hk (by simp [h]))
    · intro h
      exact hk (by simp only [List.map_cons, List.mem_cons]; exact Or.inr h)

theorem get_addAll_of_mem (r : FileSystemRepository) (ds : List OAuth)
    (hnd : (ds.map OAuth.Name).Nodup) (d : OAuth) (hd : d ∈ ds) :
    (r.addAll ds).servers.get d.Name = some d := by
  induction ds generalizing r with
  | nil => simp at hd
  | cons a ds ih =>
    have hnd2 : a.Name ∉ ds.map OAuth.Name ∧ (ds.map OAuth.Name).Nodup :=
      List.nodup_cons.1 hnd
    rw [addAll_cons]
    rcases List.mem_cons.1 hd with h | h
    · subst h
      rw [get_addAll_of_not_mem _ _ _ hnd2.1]
      exact GoMap.get_set_self r.servers d.Name d
    · exact ih _ hnd2.2 h

theorem scanTokenURL_cases (s : String) (l : List (String × OAuth)) :
    (∃ e ∈ l, e.2.Endpoints.Token.UpstreamURL = s ∧ scanTokenURL s l = (some e.2, none)) ∨
    ((∀ e ∈ l, e.2.Endpoints.Token.UpstreamURL ≠ s) ∧
      scanTokenURL s l = (none, some GoError.ErrOauthServerNotFound)) := by
  induction l with
  | nil => exact Or.inr ⟨by simp, rfl⟩
  | cons a l ih =>
    by_cases h : a.2.Endpoints.Token.UpstreamURL = s
    · exact Or.inl ⟨a, List.mem_cons_self a l, h, by simp [scanTokenURL, h]⟩
    · have hstep : scanTokenURL s (a :: l) = scanTokenURL s l := by simp [scanTokenURL, h]
      rcases ih with ⟨e, he, hu, hr⟩ | ⟨hall, hr⟩
      · exact Or.inl ⟨e, List.mem_cons_of_mem a he, hu, hstep.trans hr⟩
      · refine Or.inr ⟨?_, hstep.trans hr⟩
        intro e he
        rcases List.mem_cons.1 he with rfl | he
        · exact h
        · exact hall e he

theorem addAll_entries (r : FileSystemRepository) (ds : List OAuth)
    (hnd : (ds.map OAuth.Name).Nodup)
    (hfresh : ∀ d ∈ ds, ¬ r.servers.HasKey d.Name) :
    (r.addAll ds).servers.entries = r.servers.entries ++ ds.map (fun d => (d.Name, d)) := by
  induction ds generalizing r with
  | nil => simp [addAll]
  | cons a ds ih =>
    have hnd2 : a.Name ∉ ds.map OAuth.Name ∧ (ds.map OAuth.Name).Nodup :=
      List.nodup_cons.1 hnd
    have hstep : (r.Add a).1.servers.entries = r.servers.entries ++ [(a.Name, a)] :=
      GoMap.set_entries_of_not_hasKey r.servers a.Name a (hfresh a (List.mem_cons_self a ds))
    rw [addAll_cons, ih (r.Add a).1 hnd2.2, hstep]
    · simp [List.append_assoc]
    · intro d hd hkey
      unfold GoMap.HasKey at hkey
      rw [hstep, List.map_append, List.mem_append] at hkey
      rcases hkey with hkey | hkey
      · exact hfresh d (List.mem_cons_of_mem a hd) hkey
      · have hda : d.Name = a.Name := by simpa using hkey
        exact hnd2.1 (List.mem_map.2 ⟨d, hd, hda⟩)

theorem addAll_empty_entries (ds : List OAuth) (hnd : (ds.map OAuth.Name).Nodup) :
    ((⟨GoMap.empty⟩ : FileSystemRepository).addAll ds).servers.entries
      = ds.map (fun d => (d.Name, d)) := by
  rw [addAll_entries _ ds hnd]
  · simp [GoMap.empty]
  · intro d _ hkey
    simp [GoMap.HasKey, GoMap.empty] at hkey

theorem FindAll_perm_of_entries (r : FileSystemRepository) (it : List (String × OAuth))
    (hit : r.servers.IterOrder it) (ds : List OAuth)
    (hent : r.servers.entries = ds.map (fun d => (d.Name, d))) :
    (r.FindAll it).1.Perm ds := by
  rw [FindAll_eq]
  have h1 : (it.map Prod.snd).Perm (r.servers.entries.map Prod.snd) := List.Perm.map _ hit
  rw [hent, List.map_map] at h1
  simpa [Function.comp_def] using h1

end FileSystemRepository

/-! ## Lemmas on the loading loop -/

theorem jsonNames_cons_of_json (f : String) (rest : List String)
    (h : stringsContains f ".json" = true) : jsonNames (f :: rest) = f :: jsonNames rest := by
  simp [jsonNames, List.filter_cons, h]

theorem jsonNames_cons_of_not_json (f : String) (rest : List String)
    (h : ¬ stringsContains f ".json" = true) : jsonNames (f :: rest) = jsonNames rest := by
  simp [jsonNames, List.filter_cons, h]

theorem mem_jsonNames (files : List String) (f : String) :
    f ∈ jsonNames files ↔ f ∈ files ∧ stringsContains f ".json" = true := by
  simp [jsonNames, List.mem_filter]

theorem loadFiles_skip (env : Env) (dir f : String) (rest : List String)
    (repo : FileSystemRepository) (reads : List String)
    (h : ¬ stringsContains f ".json" = true) :
    loadFiles env dir (f :: rest) repo reads = loadFiles env dir rest repo reads := by
  simp [loadFiles, h]

theorem loadFiles_read_error (env : Env) (dir f : String) (rest : List String)
    (repo : FileSystemRepository) (reads : List String) (e : GoError)
    (h : stringsContains f ".json" = true)
    (hr : env.ReadFile (env.Join dir f) = Except.error e) :
    loadFiles env dir (f :: rest) repo reads = ⟨none, some e, reads ++ [env.Join dir f]⟩ := by
  simp [loadFiles, h, hr]

theorem loadFiles_read_ok (env : Env) (dir f : String) (rest : List String)
    (repo : FileSystemRepository) (reads : List String) (body : Bytes)
    (h : stringsContains f ".json" = true)
    (hr : env.ReadFile (env.Join dir f) = Except.ok body) :
    loadFiles env dir (f :: rest) repo reads
      = loadFiles env dir rest (repo.Add (parseDefinition env body)).1
          (reads ++ [env.Join dir f]) := by
  simp [loadFiles, h, hr, FileSystemRepository.Add]

theorem loadFiles_jsonNames (env : Env) (dir : String) (files : List String)
    (repo : FileSystemRepository) (reads : List String) :
    loadFiles env dir (jsonNames files) repo reads = loadFiles env dir files repo reads := by
  induction files generalizing repo reads with
  | nil => rfl
  | cons f rest ih =>
    by_cases h : stringsContains f ".json" = true
    · rw [jsonNames_cons_of_json f rest h]
      cases hr : env.ReadFile (env.Join dir f) with
      | error e => rw [loadFiles_read_error _ _ _ _ _ _ e h hr, loadFiles_read_error _ _ _ _ _ _ e h hr]
      | ok body => rw [loadFiles_read_ok _ _ _ _ _ _ body h hr, loadFiles_read_ok _ _ _ _ _ _ body h hr, ih]
    · rw [jsonNames_cons_of_not_json f rest h, loadFiles_skip _ _ _ _ _ _ h, ih]

theorem loadFiles_congr (env env2 : Env) (dir : String) (files : List String)
    (repo : FileSystemRepository) (reads : List String)
    (hjoin : env2.Join = env.Join) (hparse : env2.Unmarshal = env.Unmarshal)
    (hread : ∀ f ∈ files, stringsContains f ".json" = true →
      env2.ReadFile (env.Join dir f) = env.ReadFile (env.Join dir f)) :
    loadFiles env2 dir files repo reads = loadFiles env dir files repo reads := by
  induction files generalizing repo reads with
  | nil => rfl
  | cons f rest ih =>
    have ih2 := fun repo reads => ih repo reads
      (fun g hg hj => hread g (List.mem_cons_of_mem f hg) hj)
    by_cases h : stringsContains f ".json" = true
    · have h2 : env2.ReadFile (env2.Join dir f) = env.ReadFile (env.Join dir f) := by
        rw [hjoin]; exact hread f (List.mem_cons_self f rest) h
      cases hr : env.ReadFile (env.Join dir f) with
      | error e =>
        rw [loadFiles_read_error _ _ _ _ _ _ e h hr,
          loadFiles_read_error _ _ _ _ _ _ e h (h2.trans hr), hjoin]
      | ok body =>
        rw [loadFiles_read_ok _ _ _ _ _ _ body h hr,
          loadFiles_read_ok _ _ _ _ _ _ body h (h2.trans hr), hjoin, ih2]
        simp [parseDefinition, hparse]
    · rw [loadFiles_skip _ _ _ _ _ _ h, loadFiles_skip _ _ _ _ _ _ h, ih2]

theorem loadFiles_reads_mem (env : Env) (dir : String) (files : List String)
    (repo : FileSystemRepository) (reads : List String) (path : String)
    (hp : path ∈ (loadFiles env dir files repo reads).reads) :
    path ∈ reads ∨
      ∃ f ∈ files, stringsContains f ".json" = true ∧ path = env.Join dir f := by
  induction files generalizing repo reads with
  | nil => exact Or.inl hp
  | cons f rest ih =>
    by_cases h : stringsContains f ".json" = true
    · have hhere : path ∈ reads ++ [env.Join dir f] → path ∈ reads ∨
          ∃ g ∈ f :: rest, stringsContains g ".json" = true ∧ path = env.Join dir g := by
        intro hm
        rcases List.mem_append.1 hm with hm | hm
        · exact Or.inl hm
        · exact Or.inr ⟨f, List.mem_cons_self f rest, h, by simpa using hm⟩
      cases hr : env.ReadFile (env.Join dir f) with
      | error e =>
        rw [loadFiles_read_error _ _ _ _ _ _ e h hr] at hp
        exact hhere hp
      | ok body =>
        rw [loadFiles_read_ok _ _ _ _ _ _ body h hr] at hp
        rcases ih _ _ hp with hm | ⟨g, hg, hj, hpg⟩
        · exact hhere hm
        · exact Or.inr ⟨g, List.mem_cons_of_mem f hg, hj, hpg⟩
    · rw [loadFiles_skip _ _ _ _ _ _ h] at hp
      rcases ih _ _ hp with hm | ⟨g, hg, hj, hpg⟩
      · exact Or.inl hm
      · exact Or.inr ⟨g, List.mem_cons_of_mem f hg, hj, hpg⟩

theorem parsedDefinitions_cons_ok (env : Env) (dir f : String) (rest : List String)
    (body : Bytes) (h : stringsContains f ".json" = true)
    (hr : env.ReadFile (env.Join dir f) = Except.ok body) :
    parsedDefinitions env dir (f :: rest)
      = parseDefinition env body :: parsedDefinitions env dir rest := by
  unfold parsedDefinitions
  rw [jsonNames_cons_of_json f rest h, List.filterMap_cons]
  simp [hr]

theorem parsedDefinitions_cons_skip (env : Env) (dir f : String) (rest : List String)
    (h : ¬ stringsContains f ".json" = true) :
    parsedDefinitions env dir (f :: rest) = parsedDefinitions env dir rest := by
  unfold parsedDefinitions
  rw [jsonNames_cons_of_not_json f rest h]

theorem loadFiles_all_read (env : Env) (dir : String) (files : List String)
    (repo : FileSystemRepository) (reads : List String)
    (hread : ∀ f ∈ files, stringsContains f ".json" = true →
      ∃ body, env.ReadFile (env.Join dir f) = Except.ok body) :
    loadFiles env dir files repo reads
      = ⟨some (repo.addAll (parsedDefinitions env dir files)), none,
          reads ++ (jsonNames files).map (env.Join dir)⟩ := by
  induction files generalizing repo reads with
  | nil => simp [loadFiles, parsedDefinitions, jsonNames, FileSystemRepository.addAll]
  | cons f rest ih =>
    have ih2 := fun repo reads => ih repo reads
      (fun g hg hj => hread g (List.mem_cons_of_mem f hg) hj)
    by_cases h : stringsContains f ".json" = true
    · obtain ⟨body, hr⟩ := hread f (List.mem_cons_self f rest) h
      rw [loadFiles_read_ok _ _ _ _ _ _ body h hr, ih2,
        parsedDefinitions_cons_ok _ _ _ _ body h hr, jsonNames_cons_of_json f rest h,
        FileSystemRepository.addAll_cons]
      simp [List.append_assoc]
    · rw [loadFiles_skip _ _ _ _ _ _ h, ih2, parsedDefinitions_cons_skip _ _ _ _ h,
        jsonNames_cons_of_not_json f rest h]

theorem parsedDefinitions_length (env : Env) (dir : String) (files : List String)
    (hread : ∀ f ∈ files, stringsContains f ".json" = true →
      ∃ body, env.ReadFile (env.Join dir f) = Except.ok body) :
    (parsedDefinitions env dir files).length = (jsonNames files).length := by
  induction files with
  | nil => rfl
  | cons f rest ih =>
    have ih2 := ih (fun g hg hj => hread g (List.mem_cons_of_mem f hg) hj)
    by_cases h : stringsContains f ".json" = true
    · obtain ⟨body, hr⟩ := hread f (List.mem_cons_self f rest) h
      rw [parsedDefinitions_cons_ok _ _ _ _ body h hr, jsonNames_cons_of_json f rest h]
      simp [ih2]
    · rw [parsedDefinitions_cons_skip _ _ _ _ h, jsonNames_cons_of_not_json f rest h, ih2]

theorem loadFiles_first_failure (env : Env) (dir : String) (pre : List String) (f : String)
    (post : List String) (e : GoError) (repo : FileSystemRepository) (reads : List String)
    (hpre : ∀ g ∈ pre, stringsContains g ".json" = true ∧
      ∃ body, env.ReadFile (env.Join dir g) = Except.ok body)
    (hf : stringsContains f ".json" = true)
    (hr : env.ReadFile (env.Join dir f) = Except.error e) :
    loadFiles env dir (pre ++ f :: post) repo reads
      = ⟨none, some e, reads ++ (pre ++ [f]).map (env.Join dir)⟩ := by
  induction pre generalizing repo reads with
  | nil => simp [loadFiles_read_error _ _ _ _ _ _ e hf hr]
  | cons g pre ih =>
    obtain ⟨hg, body, hb⟩ := hpre g (List.mem_cons_self g pre)
    rw [List.cons_append, loadFiles_read_ok _ _ _ _ _ _ body hg hb,
      ih _ _ (fun x hx => hpre x (List.mem_cons_of_mem g hx))]
    simp [List.append_assoc]

theorem loadFiles_cases (env : Env) (dir : String) (files : List String)
    (repo : FileSystemRepository) (reads : List String) :
    ((∀ f ∈ files, stringsContains f ".json" = true →
        ∃ body, env.ReadFile (env.Join dir f) = Except.ok body) ∧
      ∃ repo2, loadFiles env dir files repo reads
        = ⟨some repo2, none, reads ++ (jsonNames files).map (env.Join dir)⟩) ∨
    (∃ f ∈ files, stringsContains f ".json" = true ∧
      ∃ e, env.ReadFile (env.Join dir f) = Except.error e ∧
        (loadFiles env dir files repo reads).repo = none ∧
        (loadFiles env dir files repo reads).err = some e) := by
  induction files generalizing repo reads with
  | nil => exact Or.inl ⟨by simp, repo, by simp [loadFiles, jsonNames]⟩
  | cons f rest ih =>
    by_cases h : stringsContains f ".json" = true
    · cases hr : env.ReadFile (env.Join dir f) with
      | error e =>
        refine Or.inr ⟨f, List.mem_cons_self f rest, h, e, hr, ?_, ?_⟩ <;>
          rw [loadFiles_read_error _ _ _ _ _ _ e h hr]
      | ok body =>
        rw [loadFiles_read_ok _ _ _ _ _ _ body h hr]
        rcases ih (repo.Add (parseDefinition env body)).1 (reads ++ [env.Join dir f]) with
          ⟨hall, repo2, h2⟩ | ⟨g, hg, hj, e, he, h1, h2⟩
        · refine Or.inl ⟨?_, repo2, ?_⟩
          · intro x hx hxj
            rcases List.mem_cons.1 hx with rfl | hx
            · exact ⟨body, hr⟩
            · exact hall x hx hxj
          · rw [h2, jsonNames_cons_of_json f rest h]
            simp [List.append_assoc]
        · exact Or.inr ⟨g, List.mem_cons_of_mem f hg, hj, e, he, h1, h2⟩
    · rw [loadFiles_skip _ _ _ _ _ _ h, jsonNames_cons_of_not_json f rest h]
      rcases ih repo reads with ⟨hall, repo2, h2⟩ | ⟨g, hg, hj, e, he, h1, h2⟩
      · refine Or.inl ⟨?_, repo2, h2⟩
        intro x hx hxj
        rcases List.mem_cons.1 hx with rfl | hx
        · exact absurd hxj h
        · exact hall x hx hxj
      · exact Or.inr ⟨g, List.mem_cons_of_mem f hg, hj, e, he, h1, h2⟩

/-! ## The repository operations: what callers observe -/

open FileSystemRepository

/-- C1: from any repository state, once every definition of a sequence with
pairwise distinct names has been added with `Add`, `FindByName(D.Name)` returns
`D` and a `nil` error for every `D` of the sequence. -/
theorem C1_findByName_after_adds (r : FileSystemRepository) (ds : List OAuth)
    (hnd : (ds.map OAuth.Name).Nodup) :
    ∀ D ∈ ds, (r.addAll ds).FindByName D.Name = (some D, none) := by
  intro D hD
  exact FindByName_eq_of_get _ _ _ (get_addAll_of_mem r ds hnd D hD)

/-- C1 instantiated: adding `oldA` then `defB` to a repository that already
holds an entry named `b`. -/
theorem C1_findByName_after_adds_witness :
    (Sample.repoB.addAll [Sample.oldA, Sample.defB]).FindByName Sample.oldA.Name
      = (some Sample.oldA, none) ∧
    (Sample.repoB.addAll [Sample.oldA, Sample.defB]).FindByName Sample.defB.Name
      = (some Sample.defB, none) :=
  ⟨C1_findByName_after_adds Sample.repoB [Sample.oldA, Sample.defB] (by decide)
      Sample.oldA (by simp),
   C1_findByName_after_adds Sample.repoB [Sample.oldA, Sample.defB] (by decide)
      Sample.defB (by simp)⟩

/-- C2, as stated, fails: in a repository that already holds `oldA` under the
key `x`, `Add(oldA)` followed by `Add(newA)` (both named `a`, and different)
leaves `oldA` in the sequence returned by `FindAll`. -/
theorem C2_stale_entry_counterexample :
    Sample.oldA.Name = Sample.newA.Name ∧ Sample.oldA ≠ Sample.newA ∧
    ((Sample.aliased.Add Sample.oldA).1.Add Sample.newA).1.servers.IterOrder
      [("x", Sample.oldA), ("a", Sample.newA)] ∧
    Sample.oldA ∈ (((Sample.aliased.Add Sample.oldA).1.Add Sample.newA).1.FindAll
      [("x", Sample.oldA), ("a", Sample.newA)]).1 := by
  refine ⟨by decide, by decide, ?_, by decide⟩
  unfold GoMap.IterOrder
  decide

/-- C2, amended: in every state and for definitions `D1`, `D2` of the same
name, after `Add(D1)` then `Add(D2)` both calls have returned `nil`,
`FindByName` of that name returns `D2`, and `FindAll` contains `D2`; when
moreover `D1` differs from `D2` and the starting state held `D1` under no key
other than its name, `FindAll` does not contain `D1`. -/
theorem C2_add_overwrites (r : FileSystemRepository) (D1 D2 : OAuth)
    (it : List (String × OAuth)) (hname : D1.Name = D2.Name)
    (hit : ((r.Add D1).1.Add D2).1.servers.IterOrder it) :
    (r.Add D1).2 = none ∧ ((r.Add D1).1.Add D2).2 = none ∧
    ((r.Add D1).1.Add D2).1.FindByName D1.Name = (some D2, none) ∧
    D2 ∈ (((r.Add D1).1.Add D2).1.FindAll it).1 ∧
    (D1 ≠ D2 → (∀ k, (k, D1) ∈ r.servers.entries → k = D1.Name) →
      D1 ∉ (((r.Add D1).1.Add D2).1.FindAll it).1) := by
  refine ⟨rfl, rfl, ?_, ?_, ?_⟩
  · apply FindByName_eq_of_get
    rw [hname]
    exact GoMap.get_set_self _ _ _
  · rw [mem_FindAll _ _ hit]
    exact ⟨D2.Name, (GoMap.mem_set_entries _ _ _ _).2 (Or.inr rfl)⟩
  · intro hne hkey
    rw [mem_FindAll _ _ hit]
    rintro ⟨k, hk⟩
    rcases (GoMap.mem_set_entries _ _ _ _).1 hk with ⟨h1, h2⟩ | h1
    · rcases (GoMap.mem_set_entries _ _ _ _).1 h1 with ⟨h3, h4⟩ | h3
      · exact h4 (hkey k h3)
      · exact h2 ((congrArg Prod.fst h3).trans hname)
    · exact hne (congrArg Prod.snd h1)

/-- C2 instantiated twice: in the repository holding `oldA` under the key `x`,
`Add(oldA)` then `Add(newA)` makes `FindByName` return `newA` and `FindAll`
contain it; in a repository holding `defB`, the same two calls leave `FindAll`
without `oldA`. -/
theorem C2_add_overwrites_witness :
    (((Sample.aliased.Add Sample.oldA).1.Add Sample.newA).1.FindByName Sample.oldA.Name
        = (some Sample.newA, none) ∧
      Sample.newA ∈ (((Sample.aliased.Add Sample.oldA).1.Add Sample.newA).1.FindAll
        [("x", Sample.oldA), ("a", Sample.newA)]).1) ∧
    (((Sample.repoB.Add Sample.oldA).1.Add Sample.newA).1.FindByName Sample.oldA.Name
        = (some Sample.newA, none) ∧
      Sample.newA ∈ (((Sample.repoB.Add Sample.oldA).1.Add Sample.newA).1.FindAll
        [("a", Sample.newA), ("b", Sample.defB)]).1 ∧
      Sample.oldA ∉ (((Sample.repoB.Add Sample.oldA).1.Add Sample.newA).1.FindAll
        [("a", Sample.newA), ("b", Sample.defB)]).1) :=
  have h1 := C2_add_overwrites Sample.aliased Sample.oldA Sample.newA
    [("x", Sample.oldA), ("a", Sample.newA)] (by decide)
    (by unfold GoMap.IterOrder; decide)
  have h2 := C2_add_overwrites Sample.repoB Sample.oldA Sample.newA
    [("a", Sample.newA), ("b", Sample.defB)] (by decide)
    (by unfold GoMap.IterOrder; decide)
  ⟨⟨h1.2.2.1, h1.2.2.2.1⟩, h2.2.2.1, h2.2.2.2.1,
    h2.2.2.2.2 (by decide)
      (by intro k hk; simp [Sample.repoB, Sample.oldA, Sample.defB] at hk)⟩

/-- C3: in every state and for every name, `FindByName(name)` right after
`Remove(name)` returns no definition and `ErrOauthServerNotFound`, and the
`Remove` itself returned `nil`, whether or not the name was a key before. -/
theorem C3_findByName_after_remove (r : FileSystemRepository) (name : String) :
    (r.Remove name).2 = none ∧
    (r.Remove name).1.FindByName name = (none, some GoError.ErrOauthServerNotFound) :=
  ⟨rfl, FindByName_eq_of_get_none _ _ (GoMap.get_delete_self r.servers name)⟩

/-- C4: `Remove(name)` for a name that is not a key returns `nil` and leaves
the mapping equal to what it was. -/
theorem C4_remove_absent_is_noop (r : FileSystemRepository) (name : String)
    (habsent : ¬ r.servers.HasKey name) :
    (r.Remove name).2 = none ∧ (r.Remove name).1.servers = r.servers :=
  ⟨rfl, GoMap.delete_of_not_hasKey r.servers name habsent⟩

/-- C4 instantiated: removing `a` from a repository whose only key is `b`. -/
theorem C4_remove_absent_is_noop_witness :
    (Sample.repoB.Remove "a").2 = none ∧
    (Sample.repoB.Remove "a").1.servers = Sample.repoB.servers :=
  C4_remove_absent_is_noop Sample.repoB "a" (by unfold GoMap.HasKey; decide)

/-- C5: `FindByName(name)` returns `ErrOauthServerNotFound` exactly when the
mapping has no entry keyed by `name` (and then returns no definition);
otherwise it returns the definition stored under `name` and a `nil` error. -/
theorem C5_findByName_result (r : FileSystemRepository) (name : String) :
    ((r.FindByName name).2 = some GoError.ErrOauthServerNotFound ↔ ¬ r.servers.HasKey name) ∧
    (¬ r.servers.HasKey name →
      r.FindByName name = (none, some GoError.ErrOauthServerNotFound)) ∧
    (r.servers.HasKey name →
      ∃ d, (name, d) ∈ r.servers.entries ∧ r.FindByName name = (some d, none)) ∧
    (∀ d, (name, d) ∈ r.servers.entries → r.FindByName name = (some d, none)) := by
  have hnone : ¬ r.servers.HasKey name →
      r.FindByName name = (none, some GoError.ErrOauthServerNotFound) := fun h =>
    FindByName_eq_of_get_none _ _ ((GoMap.get_eq_none_iff _ _).2 h)
  have hsome : ∀ d, (name, d) ∈ r.servers.entries → r.FindByName name = (some d, none) :=
    fun d hd => FindByName_eq_of_get _ _ _ ((GoMap.get_eq_some_iff _ _ _).2 hd)
  refine ⟨⟨?_, fun h => by rw [hnone h]⟩, hnone, ?_, hsome⟩
  · intro herr hkey
    rcases List.mem_map.1 hkey with ⟨e, he, rfl⟩
    rw [hsome e.2 he] at herr
    simp at herr
  · intro hkey
    rcases List.mem_map.1 hkey with ⟨e, he, rfl⟩
    exact ⟨e.2, he, hsome e.2 he⟩

/-- C5 instantiated: in a repository whose only key is `b`, looking up `b`
gives the stored definition and looking up `a` gives the sentinel error. -/
theorem C5_findByName_result_witness :
    Sample.repoB.FindByName "b" = (some Sample.defB, none) ∧
    Sample.repoB.FindByName "a" = (none, some GoError.ErrOauthServerNotFound) :=
  ⟨(C5_findByName_result Sample.repoB "b").2.2.2 Sample.defB (by decide),
   (C5_findByName_result Sample.repoB "a").2.1 (by unfold GoMap.HasKey; decide)⟩

/-- C6: for every iteration order of the mapping, `FindByTokenURL(u)` either
returns, with a `nil` error, a definition stored in the mapping whose
`Endpoints.Token.UpstreamURL` equals `u.String()`, or returns no definition and
`ErrOauthServerNotFound`; the latter happens exactly when no stored definition
has that upstream token URL. -/
theorem C6_findByTokenURL_result (r : FileSystemRepository) (it : List (String × OAuth))
    (u : URL) (hit : r.servers.IterOrder it) :
    ((∃ k d, (k, d) ∈ r.servers.entries ∧ d.Endpoints.Token.UpstreamURL = u.String ∧
        r.FindByTokenURL it u = (some d, none)) ∨
      r.FindByTokenURL it u = (none, some GoError.ErrOauthServerNotFound)) ∧
    ((r.FindByTokenURL it u).2 = some GoError.ErrOauthServerNotFound ↔
      ∀ k d, (k, d) ∈ r.servers.entries → d.Endpoints.Token.UpstreamURL ≠ u.String) := by
  unfold FindByTokenURL
  rcases scanTokenURL_cases u.String it with ⟨e, he, hu, hr⟩ | ⟨hall, hr⟩
  · have hmem : (e.1, e.2) ∈ r.servers.entries := (List.Perm.mem_iff hit).1 he
    refine ⟨Or.inl ⟨e.1, e.2, hmem, hu, hr⟩, ?_⟩
    rw [hr]
    constructor
    · intro h; simp at h
    · intro h; exact absurd hu (h e.1 e.2 hmem)
  · refine ⟨Or.inr hr, ?_⟩
    rw [hr]
    constructor
    · intro _ k d hkd
      exact hall (k, d) ((List.Perm.mem_iff hit).2 hkd)
    · intro _; rfl

/-- C6 instantiated: looking up the token URL of `defB`, then an unknown URL,
in a repository holding `oldA` and `defB`, visited `b` first. -/
theorem C6_findByTokenURL_result_witness :
    ((∃ k d, (k, d) ∈ (Sample.repoB.Add Sample.oldA).1.servers.entries ∧
        d.Endpoints.Token.UpstreamURL = (URL.mk "http://auth.b/token").String ∧
        (Sample.repoB.Add Sample.oldA).1.FindByTokenURL
          [("b", Sample.defB), ("a", Sample.oldA)] ⟨"http://auth.b/token"⟩ = (some d, none)) ∨
      (Sample.repoB.Add Sample.oldA).1.FindByTokenURL
        [("b", Sample.defB), ("a", Sample.oldA)] ⟨"http://auth.b/token"⟩
          = (none, some GoError.ErrOauthServerNotFound)) ∧
    (((Sample.repoB.Add Sample.oldA).1.FindByTokenURL
        [("b", Sample.defB), ("a", Sample.oldA)] ⟨"http://auth.b/token"⟩).2
          = some GoError.ErrOauthServerNotFound ↔
      ∀ k d, (k, d) ∈ (Sample.repoB.Add Sample.oldA).1.servers.entries →
        d.Endpoints.Token.UpstreamURL ≠ (URL.mk "http://auth.b/token").String) :=
  C6_findByTokenURL_result (Sample.repoB.Add Sample.oldA).1
    [("b", Sample.defB), ("a", Sample.oldA)] ⟨"http://auth.b/token"⟩
    (by unfold GoMap.IterOrder; decide)

/-- C7: `FindAll` on the empty repository returns the empty sequence and a
`nil` error; after `N` definitions with pairwise distinct names have been added
to the empty repository, `FindAll` returns, with a `nil` error and whatever the
iteration order, a sequence of length `N` whose elements are exactly the added
definitions. -/
theorem C7_findAll_after_adds (ds : List OAuth) (it : List (String × OAuth))
    (hnd : (ds.map OAuth.Name).Nodup)
    (hit : ((⟨GoMap.empty⟩ : FileSystemRepository).addAll ds).servers.IterOrder it) :
    (∀ it0, (GoMap.empty : GoMap OAuth).IterOrder it0 →
      (⟨GoMap.empty⟩ : FileSystemRepository).FindAll it0 = ([], none)) ∧
    (((⟨GoMap.empty⟩ : FileSystemRepository).addAll ds).FindAll it).2 = none ∧
    (((⟨GoMap.empty⟩ : FileSystemRepository).addAll ds).FindAll it).1.length = ds.length ∧
    (∀ d, d ∈ (((⟨GoMap.empty⟩ : FileSystemRepository).addAll ds).FindAll it).1 ↔ d ∈ ds) := by
  have hperm := FindAll_perm_of_entries _ it hit ds (addAll_empty_entries ds hnd)
  refine ⟨?_, ?_, hperm.length_eq, fun d => hperm.mem_iff⟩
  · intro it0 h0
    have : it0 = [] := List.Perm.eq_nil h0
    subst this
    rfl
  · rw [FindAll_eq]

/-- C7 instantiated: `oldA` and `defB` added to the empty repository, visited
`b` first. -/
theorem C7_findAll_after_adds_witness :
    (∀ it0, (GoMap.empty : GoMap OAuth).IterOrder it0 →
      (⟨GoMap.empty⟩ : FileSystemRepository).FindAll it0 = ([], none)) ∧
    (((⟨GoMap.empty⟩ : FileSystemRepository).addAll [Sample.oldA, Sample.defB]).FindAll
      [("b", Sample.defB), ("a", Sample.oldA)]).2 = none ∧
    (((⟨GoMap.empty⟩ : FileSystemRepository).addAll [Sample.oldA, Sample.defB]).FindAll
      [("b", Sample.defB), ("a", Sample.oldA)]).1.length = [Sample.oldA, Sample.defB].length ∧
    (∀ d, d ∈ (((⟨GoMap.empty⟩ : FileSystemRepository).addAll [Sample.oldA, Sample.defB]).FindAll
      [("b", Sample.defB), ("a", Sample.oldA)]).1 ↔ d ∈ [Sample.oldA, Sample.defB]) :=
  C7_findAll_after_adds [Sample.oldA, Sample.defB] [("b", Sample.defB), ("a", Sample.oldA)]
    (by decide) (by unfold GoMap.IterOrder; decide)

/-! ## Construction: what callers observe -/

/-- C8: when the directory can be listed and every listed entry whose name
contains `.json` can be read, with the names of the parsed definitions pairwise
distinct, `NewFileSystemRepository` returns a repository and a `nil` error, and
`FindAll` on that repository returns, whatever the iteration order, the parsed
definitions of those entries, one per entry and each once; parse success is not
needed for this. -/
theorem C8_load_then_findAll (env : Env) (dir : String) (files : List String)
    (hlist : env.ReadDir dir = Except.ok files)
    (hread : ∀ f ∈ files, stringsContains f ".json" = true →
      ∃ body, env.ReadFile (env.Join dir f) = Except.ok body)
    (hnd : ((parsedDefinitions env dir files).map OAuth.Name).Nodup) :
    ∃ repo, (NewFileSystemRepository env dir).repo = some repo ∧
      (NewFileSystemRepository env dir).err = none ∧
      (parsedDefinitions env dir files).length = (jsonNames files).length ∧
      ∀ it, repo.servers.IterOrder it →
        (repo.FindAll it).2 = none ∧
        (repo.FindAll it).1.Perm (parsedDefinitions env dir files) := by
  have hres : NewFileSystemRepository env dir
      = ⟨some ((⟨GoMap.empty⟩ : FileSystemRepository).addAll (parsedDefinitions env dir files)),
          none, [] ++ (jsonNames files).map (env.Join dir)⟩ := by
    rw [← loadFiles_all_read env dir files ⟨GoMap.empty⟩ [] hread]
    simp [NewFileSystemRepository, hlist]
  refine ⟨_, by rw [hres], by rw [hres], parsedDefinitions_length env dir files hread, ?_⟩
  intro it hit
  refine ⟨by rw [FindAll_eq], ?_⟩
  exact FindAll_perm_of_entries _ it hit _ (addAll_empty_entries _ hnd)

/-- C8 instantiated: the directory `conf` with `a.json`, `b.json` and an
unreadable `readme.txt`. -/
theorem C8_load_then_findAll_witness :
    ∃ repo, (NewFileSystemRepository Sample.confEnv "conf").repo = some repo ∧
      (NewFileSystemRepository Sample.confEnv "conf").err = none ∧
      (parsedDefinitions Sample.confEnv "conf" ["a.json", "b.json", "readme.txt"]).length
        = (jsonNames ["a.json", "b.json", "readme.txt"]).length ∧
      ∀ it, repo.servers.IterOrder it →
        (repo.FindAll it).2 = none ∧
        (repo.FindAll it).1.Perm
          (parsedDefinitions Sample.confEnv "conf" ["a.json", "b.json", "readme.txt"]) :=
  C8_load_then_findAll Sample.confEnv "conf" ["a.json", "b.json", "readme.txt"] rfl
    (by
      intro f hf hj
      simp only [List.mem_cons, List.mem_singleton, List.not_mem_nil, or_false] at hf
      rcases hf with rfl | rfl | rfl
      · exact ⟨[0], rfl⟩
      · exact ⟨[1], rfl⟩
      · exact absurd hj (by decide))
    (by decide)

/-- C9: listed entries whose name does not contain `.json` are never handed to
`ioutil.ReadFile` and do not influence the outcome: the constructor returns the
same repository, error and sequence of reads when those entries are deleted from
the listing and whatever reading them would give, success or failure. -/
theorem C9_non_json_entries_ignored (env env2 : Env) (dir : String) (files : List String)
    (hlist : env.ReadDir dir = Except.ok files)
    (hlist2 : env2.ReadDir dir = Except.ok (jsonNames files))
    (hjoin : env2.Join = env.Join) (hparse : env2.Unmarshal = env.Unmarshal)
    (hread : ∀ f ∈ files, stringsContains f ".json" = true →
      env2.ReadFile (env.Join dir f) = env.ReadFile (env.Join dir f)) :
    NewFileSystemRepository env2 dir = NewFileSystemRepository env dir ∧
    ∀ path ∈ (NewFileSystemRepository env dir).reads,
      ∃ f ∈ files, stringsContains f ".json" = true ∧ path = env.Join dir f := by
  have h1 : NewFileSystemRepository env dir = loadFiles env dir files ⟨GoMap.empty⟩ [] := by
    simp [NewFileSystemRepository, hlist]
  have h2 : NewFileSystemRepository env2 dir
      = loadFiles env2 dir (jsonNames files) ⟨GoMap.empty⟩ [] := by
    simp [NewFileSystemRepository, hlist2]
  constructor
  · rw [h1, h2, loadFiles_congr env env2 dir (jsonNames files) _ _ hjoin hparse
      (fun f hf hj => hread f ((mem_jsonNames files f).1 hf).1 hj), loadFiles_jsonNames]
  · intro path hp
    rw [h1] at hp
    rcases loadFiles_reads_mem env dir files _ _ path hp with hm | hm
    · simp at hm
    · exact hm

/-- C9 instantiated: `conf` listed with and without `readme.txt`, whose read
fails in the first environment and succeeds in the second. -/
theorem C9_non_json_entries_ignored_witness :
    NewFileSystemRepository Sample.confEnvJsonOnly "conf"
      = NewFileSystemRepository Sample.confEnv "conf" ∧
    ∀ path ∈ (NewFileSystemRepository Sample.confEnv "conf").reads,
      ∃ f ∈ ["a.json", "b.json", "readme.txt"],
        stringsContains f ".json" = true ∧ path = Sample.confEnv.Join "conf" f :=
  C9_non_json_entries_ignored Sample.confEnv Sample.confEnvJsonOnly "conf"
    ["a.json", "b.json", "readme.txt"] rfl rfl rfl rfl
    (by
      intro f hf hj
      simp only [List.mem_cons, List.mem_singleton, List.not_mem_nil, or_false] at hf
      rcases hf with rfl | rfl | rfl
      · rfl
      · rfl
      · exact absurd hj (by decide))

/-- C10: `NewFileSystemRepository` returns a non-nil error exactly when the
directory cannot be listed or the read of some listed entry whose name contains
`.json` fails.  A failing call returns no repository (and a successful one
returns one).  When the listing fails, its error is returned and nothing is
read; otherwise the error returned is that of the first failing read in listing
order, and the reads performed are those of the `.json` entries up to and
including that one, none after it. -/
theorem C10_load_failure (env : Env) (dir : String) :
    ((NewFileSystemRepository env dir).err ≠ none ↔
      (∃ e, env.ReadDir dir = Except.error e) ∨
      (∃ files, env.ReadDir dir = Except.ok files ∧
        ∃ f ∈ files, stringsContains f ".json" = true ∧
          ∃ e, env.ReadFile (env.Join dir f) = Except.error e)) ∧
    ((NewFileSystemRepository env dir).err ≠ none →
      (NewFileSystemRepository env dir).repo = none) ∧
    ((NewFileSystemRepository env dir).err = none →
      ∃ repo, (NewFileSystemRepository env dir).repo = some repo) ∧
    (∀ e, env.ReadDir dir = Except.error e →
      NewFileSystemRepository env dir = ⟨none, some e, []⟩) ∧
    (∀ files pre f post e, env.ReadDir dir = Except.ok files →
      jsonNames files = pre ++ f :: post →
      (∀ g ∈ pre, ∃ body, env.ReadFile (env.Join dir g) = Except.ok body) →
      env.ReadFile (env.Join dir f) = Except.error e →
      NewFileSystemRepository env dir
        = ⟨none, some e, (pre ++ [f]).map (env.Join dir)⟩) := by
  cases hlist : env.ReadDir dir with
  | error e0 =>
    have hres : NewFileSystemRepository env dir = ⟨none, some e0, []⟩ := by
      simp [NewFileSystemRepository, hlist]
    refine ⟨?_, fun _ => by rw [hres], ?_, ?_, ?_⟩
    · rw [hres]
      exact ⟨fun _ => Or.inl ⟨e0, rfl⟩, fun _ => by simp⟩
    · rw [hres]; intro h; simp at h
    · intro e he
      cases he
      exact hres
    · intro files pre f post e he
      cases he
  | ok files =>
    have hres : NewFileSystemRepository env dir = loadFiles env dir files ⟨GoMap.empty⟩ [] := by
      simp [NewFileSystemRepository, hlist]
    refine ⟨?_, ?_, ?_, ?_, ?_⟩
    · rw [hres]
      constructor
      · intro herr
        rcases loadFiles_cases env dir files ⟨GoMap.empty⟩ [] with
          ⟨_, repo2, h2⟩ | ⟨f, hf, hj, e, he, _, _⟩
        · rw [h2] at herr; exact absurd rfl herr
        · exact Or.inr ⟨files, rfl, f, hf, hj, e, he⟩
      · rintro (⟨e, he⟩ | ⟨files2, hfiles, f, hf, hj, e, he⟩)
        · cases he
        · cases hfiles
          rcases loadFiles_cases env dir files ⟨GoMap.empty⟩ [] with
            ⟨hall, _, _⟩ | ⟨_, _, _, e2, _, _, h2⟩
          · obtain ⟨body, hb⟩ := hall f hf hj
            rw [hb] at he
            cases he
          · rw [h2]; simp
    · rw [hres]
      intro herr
      rcases loadFiles_cases env dir files ⟨GoMap.empty⟩ [] with
        ⟨_, repo2, h2⟩ | ⟨_, _, _, _, _, h1, _⟩
      · rw [h2] at herr; exact absurd rfl herr
      · exact h1
    · rw [hres]
      intro herr
      rcases loadFiles_cases env dir files ⟨GoMap.empty⟩ [] with
        ⟨_, repo2, h2⟩ | ⟨_, _, _, e2, _, _, h2⟩
      · exact ⟨repo2, by rw [h2]⟩
      · rw [h2] at herr; simp at herr
    · intro e he
      cases he
    · intro files2 pre f post e hfiles hsplit hpre hfail
      cases hfiles
      have hmem : ∀ g ∈ pre ++ f :: post, stringsContains g ".json" = true := by
        intro g hg
        rw [← hsplit] at hg
        exact ((mem_jsonNames files g).1 hg).2
      rw [hres, ← loadFiles_jsonNames, hsplit,
        loadFiles_first_failure env dir pre f post e _ _
          (fun g hg => ⟨hmem g (List.mem_append_left _ hg), hpre g hg⟩)
          (hmem f (List.mem_append_right _ (List.mem_cons_self f post))) hfail]
      simp

/-- C10 instantiated: in `conf`, `broken.json` sits between `a.json` and
`b.json` and cannot be read; `a.json` and `broken.json` are read, `b.json` is
not, and the error of the failed read comes back without a repository. -/
theorem C10_load_failure_witness :
    NewFileSystemRepository Sample.brokenEnv "conf"
      = ⟨none, some (GoError.fsFailure "permission denied"),
          ["conf/a.json", "conf/broken.json"]⟩ ∧
    NewFileSystemRepository Sample.brokenEnv "nowhere"
      = ⟨none, some (GoError.fsFailure "no such file or directory"), []⟩ :=
  ⟨(C10_load_failure Sample.brokenEnv "conf").2.2.2.2
      ["a.json", "broken.json", "b.json"] ["a.json"] "broken.json" ["b.json"]
      (GoError.fsFailure "permission denied") rfl (by decide)
      (by
        intro g hg
        simp only [List.mem_singleton] at hg
        subst hg
        exact ⟨[0], rfl⟩)
      rfl,
   (C10_load_failure Sample.brokenEnv "nowhere").2.2.2.1
      (GoError.fsFailure "no such file or directory") rfl⟩

/-! ## Lemmas on sequences of calls -/

namespace GoMap

variable {V : Type}

theorem get_delete_of_ne (m : GoMap V) (k k2 : String) (h : k2 ≠ k) :
    (m.delete k).get k2 = m.get k2 := by
  cases hg : m.get k2 with
  | none =>
    rw [get_eq_none_iff] at hg ⊢
    intro hk
    apply hg
    rcases List.mem_map.1 hk with ⟨e, he, rfl⟩
    exact List.mem_map.2 ⟨e, ((mem_delete_entries m k e).1 he).1, rfl⟩
  | some w =>
    rw [get_eq_some_iff] at hg ⊢
    exact (mem_delete_entries m k _).2 ⟨hg, h⟩

theorem hasKey_iff_get (m : GoMap V) (k : String) : m.HasKey k ↔ ∃ v, m.get k = some v := by
  constructor
  · intro h
    cases hg : m.get k with
    | none => exact absurd h ((get_eq_none_iff m k).1 hg)
    | some v => exact ⟨v, rfl⟩
  · rintro ⟨v, hv⟩
    by_contra hk
    rw [(get_eq_none_iff m k).2 hk] at hv
    cases hv

end GoMap

namespace FileSystemRepository

theorem keyedByName_empty : (⟨GoMap.empty⟩ : FileSystemRepository).KeyedByName := by
  intro e he
  simp [GoMap.empty] at he

theorem keyedByName_Add (r : FileSystemRepository) (d : OAuth) (h : r.KeyedByName) :
    (r.Add d).1.KeyedByName := by
  intro e he
  rcases (GoMap.mem_set_entries r.servers d.Name d e).1 he with ⟨h1, _⟩ | h1
  · exact h e h1
  · subst h1; rfl

theorem keyedByName_Remove (r : FileSystemRepository) (name : String) (h : r.KeyedByName) :
    (r.Remove name).1.KeyedByName := by
  intro e he
  exact h e ((GoMap.mem_delete_entries r.servers name e).1 he).1

theorem keyedByName_step (r : FileSystemRepository) (c : Call) (h : r.KeyedByName) :
    (r.step c).KeyedByName := by
  cases c with
  | add server => exact keyedByName_Add r server h
  | remove name => exact keyedByName_Remove r name h

theorem run_cons (r : FileSystemRepository) (c : Call) (calls : List Call) :
    r.run (c :: calls) = (r.step c).run calls := rfl

theorem keyedByName_run (r : FileSystemRepository) (calls : List Call) (h : r.KeyedByName) :
    (r.run calls).KeyedByName := by
  induction calls generalizing r with
  | nil => exact h
  | cons c calls ih =>
    rw [run_cons]
    exact ih _ (keyedByName_step r c h)

theorem addAll_eq_run (r : FileSystemRepository) (ds : List OAuth) :
    r.addAll ds = r.run (ds.map Call.add) := by
  induction ds generalizing r with
  | nil => rfl
  | cons d ds ih =>
    rw [addAll_cons, List.map_cons, run_cons, ih]
    rfl

theorem keyedByName_addAll (r : FileSystemRepository) (ds : List OAuth) (h : r.KeyedByName) :
    (r.addAll ds).KeyedByName := by
  rw [addAll_eq_run]
  exact keyedByName_run r _ h

theorem names_nodup_of_keyedByName (r : FileSystemRepository) (h : r.KeyedByName) :
    (r.servers.entries.map (fun e => e.2.Name)).Nodup := by
  have heq : r.servers.entries.map (fun e => e.2.Name) = r.servers.entries.map Prod.fst := by
    apply List.map_congr_left
    intro e he
    exact (h e he).symm
  rw [heq]
  exact r.servers.nodup

theorem addAll_append (r : FileSystemRepository) (ds1 ds2 : List OAuth) :
    r.addAll (ds1 ++ ds2) = (r.addAll ds1).addAll ds2 := by
  simp [addAll, List.foldl_append]

theorem get_addAll_last (r : FileSystemRepository) (pre : List OAuth) (d : OAuth)
    (post : List OAuth) (hlast : d.Name ∉ post.map OAuth.Name) :
    (r.addAll (pre ++ d :: post)).servers.get d.Name = some d := by
  rw [addAll_append, addAll_cons, get_addAll_of_not_mem _ _ _ hlast]
  exact GoMap.get_set_self _ d.Name d

theorem hasKey_addAll_of_mem (r : FileSystemRepository) (ds : List OAuth) (k : String)
    (hk : k ∈ ds.map OAuth.Name) : (r.addAll ds).servers.HasKey k := by
  induction ds generalizing r with
  | nil => simp at hk
  | cons a ds ih =>
    rw [addAll_cons]
    by_cases hmem : k ∈ ds.map OAuth.Name
    · exact ih _ hmem
    · rw [GoMap.hasKey_iff_get, get_addAll_of_not_mem _ _ _ hmem]
      have hka : k = a.Name := by
        rw [List.map_cons] at hk
        rcases List.mem_cons.1 hk with h | h
        · exact h
        · exact absurd h hmem
      subst hka
      exact ⟨a, GoMap.get_set_self r.servers a.Name a⟩

end FileSystemRepository

theorem parsedDefinitions_append (env : Env) (dir : String) (l1 l2 : List String) :
    parsedDefinitions env dir (l1 ++ l2)
      = parsedDefinitions env dir l1 ++ parsedDefinitions env dir l2 := by
  simp [parsedDefinitions, jsonNames, List.filter_append, List.filterMap_append]

theorem parsedDefinitions_names_of_mem (env : Env) (dir : String) (files : List String)
    (d : OAuth) (hd : d ∈ parsedDefinitions env dir files) :
    ∃ g ∈ files, stringsContains g ".json" = true ∧
      ∃ b, env.ReadFile (env.Join dir g) = Except.ok b ∧ d = parseDefinition env b := by
  unfold parsedDefinitions at hd
  rcases List.mem_filterMap.1 hd with ⟨g, hg, hgd⟩
  have hg2 := (mem_jsonNames files g).1 hg
  cases hr : env.ReadFile (env.Join dir g) with
  | error e => rw [hr] at hgd; cases hgd
  | ok b =>
    rw [hr] at hgd
    exact ⟨g, hg2.1, hg2.2, b, hr, (Option.some.inj hgd).symm⟩

theorem NewFileSystemRepository_of_readable (env : Env) (dir : String) (files : List String)
    (hlist : env.ReadDir dir = Except.ok files)
    (hread : ∀ f ∈ files, stringsContains f ".json" = true →
      ∃ body, env.ReadFile (env.Join dir f) = Except.ok body) :
    NewFileSystemRepository env dir
      = ⟨some ((⟨GoMap.empty⟩ : FileSystemRepository).addAll (parsedDefinitions env dir files)),
          none, (jsonNames files).map (env.Join dir)⟩ := by
  have h := loadFiles_all_read env dir files ⟨GoMap.empty⟩ [] hread
  simp only [List.nil_append] at h
  rw [← h]
  simp [NewFileSystemRepository, hlist]

theorem NewFileSystemRepository_repo_eq (env : Env) (dir : String)
    (repo : FileSystemRepository) (h : (NewFileSystemRepository env dir).repo = some repo) :
    ∃ files, env.ReadDir dir = Except.ok files ∧
      repo = (⟨GoMap.empty⟩ : FileSystemRepository).addAll (parsedDefinitions env dir files) := by
  cases hlist : env.ReadDir dir with
  | error e0 =>
    have hres : NewFileSystemRepository env dir = ⟨none, some e0, []⟩ := by
      simp [NewFileSystemRepository, hlist]
    rw [hres] at h
    cases h
  | ok files =>
    refine ⟨files, rfl, ?_⟩
    have hres : NewFileSystemRepository env dir = loadFiles env dir files ⟨GoMap.empty⟩ [] := by
      simp [NewFileSystemRepository, hlist]
    rcases loadFiles_cases env dir files ⟨GoMap.empty⟩ [] with
      ⟨hall, _, _⟩ | ⟨_, _, _, _, _, h1, _⟩
    · rw [NewFileSystemRepository_of_readable env dir files hlist hall] at h
      exact (Option.some.inj h).symm
    · rw [hres, h1] at h
      cases h

theorem parsedDefinitions_split (env : Env) (dir : String) (pre : List String) (f : String)
    (post : List String) (body : Bytes) (hjson : stringsContains f ".json" = true)
    (hbody : env.ReadFile (env.Join dir f) = Except.ok body) :
    parsedDefinitions env dir (pre ++ f :: post)
      = parsedDefinitions env dir pre ++ parseDefinition env body :: parsedDefinitions env dir post := by
  rw [parsedDefinitions_append, parsedDefinitions_cons_ok env dir f post body hjson hbody]

theorem get_parsed_last (env : Env) (dir : String) (pre : List String) (f : String)
    (post : List String) (body : Bytes) (hjson : stringsContains f ".json" = true)
    (hbody : env.ReadFile (env.Join dir f) = Except.ok body)
    (hlast : ∀ g ∈ post, stringsContains g ".json" = true →
      ∀ b, env.ReadFile (env.Join dir g) = Except.ok b →
        (parseDefinition env b).Name ≠ (parseDefinition env body).Name) :
    ((⟨GoMap.empty⟩ : FileSystemRepository).addAll
        (parsedDefinitions env dir (pre ++ f :: post))).servers.get (parseDefinition env body).Name
      = some (parseDefinition env body) := by
  rw [parsedDefinitions_split env dir pre f post body hjson hbody]
  apply FileSystemRepository.get_addAll_last
  intro hmem
  obtain ⟨d, hd, hname⟩ := List.mem_map.1 hmem
  obtain ⟨g, hg, hgj, b, hb, hdb⟩ := parsedDefinitions_names_of_mem env dir post d hd
  exact hlast g hg hgj b hb (hdb ▸ hname)

/-! ## Construction: parse failures and repeated names -/

/-- C11: when the directory can be listed and every listed entry whose name
contains `.json` can be read, `NewFileSystemRepository` returns a repository
and a `nil` error whether or not any content parses: every such entry is read,
and the definition `parseDefinition` returns for it is passed to `Add`, in
listing order.  For each such entry, the repository at the end of its loop
iteration holds that definition under its `Name`; the returned repository has
that `Name` as a key, and holds that very definition there unless a later
entry yields the same `Name`.  When `json.Unmarshal` fails and leaves the
target untouched, the definition is the zero value and its `Name` is empty. -/
theorem C11_parse_failure_does_not_abort (env : Env) (dir : String) (files : List String)
    (hlist : env.ReadDir dir = Except.ok files)
    (hread : ∀ f ∈ files, stringsContains f ".json" = true →
      ∃ body, env.ReadFile (env.Join dir f) = Except.ok body) :
    ∃ repo, NewFileSystemRepository env dir
        = ⟨some repo, none, (jsonNames files).map (env.Join dir)⟩ ∧
      repo = (⟨GoMap.empty⟩ : FileSystemRepository).addAll (parsedDefinitions env dir files) ∧
      ∀ pre f post body, files = pre ++ f :: post → stringsContains f ".json" = true →
        env.ReadFile (env.Join dir f) = Except.ok body →
        (∃ mid, (loadFiles env dir (pre ++ [f]) ⟨GoMap.empty⟩ []).repo = some mid ∧
          mid.FindByName (parseDefinition env body).Name
            = (some (parseDefinition env body), none)) ∧
        repo.servers.HasKey (parseDefinition env body).Name ∧
        ((∀ g ∈ post, stringsContains g ".json" = true →
            ∀ b, env.ReadFile (env.Join dir g) = Except.ok b →
              (parseDefinition env b).Name ≠ (parseDefinition env body).Name) →
          repo.FindByName (parseDefinition env body).Name
            = (some (parseDefinition env body), none)) ∧
        (∀ e, env.Unmarshal body OAuth.zero = (OAuth.zero, some e) →
          parseDefinition env body = OAuth.zero ∧ (parseDefinition env body).Name = "") := by
  refine ⟨_, NewFileSystemRepository_of_readable env dir files hlist hread, rfl, ?_⟩
  intro pre f post body hsplit hjson hbody
  subst hsplit
  refine ⟨?_, ?_, ?_, ?_⟩
  · have hread2 : ∀ g ∈ pre ++ [f], stringsContains g ".json" = true →
        ∃ b, env.ReadFile (env.Join dir g) = Except.ok b := by
      intro g hg
      apply hread g
      rcases List.mem_append.1 hg with h | h
      · exact List.mem_append_left _ h
      · exact List.mem_append_right _ (List.mem_cons.2 (Or.inl (List.mem_singleton.1 h)))
    rw [loadFiles_all_read env dir (pre ++ [f]) _ _ hread2]
    refine ⟨_, rfl, ?_⟩
    apply FindByName_eq_of_get
    exact get_parsed_last env dir pre f [] body hjson hbody (by simp)
  · apply FileSystemRepository.hasKey_addAll_of_mem
    rw [parsedDefinitions_split env dir pre f post body hjson hbody]
    simp
  · intro hlast
    apply FindByName_eq_of_get
    exact get_parsed_last env dir pre f post body hjson hbody hlast
  · intro e he
    have hz : parseDefinition env body = OAuth.zero := by
      unfold parseDefinition
      rw [he]
    exact ⟨hz, by rw [hz]; rfl⟩

/-- C11 instantiated: `conf` holds `a.json` and `bad.json`; the content of
`bad.json` is rejected, the load succeeds all the same, and the zero-valued
definition is found under the empty name. -/
theorem C11_parse_failure_does_not_abort_witness :
    (Sample.lenientEnv.Unmarshal [9] OAuth.zero).2 ≠ none ∧
    ∃ repo, NewFileSystemRepository Sample.lenientEnv "conf"
        = ⟨some repo, none, ["conf/a.json", "conf/bad.json"]⟩ ∧
      repo.FindByName "" = (some OAuth.zero, none) := by
  obtain ⟨repo, h1, _, h3⟩ := C11_parse_failure_does_not_abort Sample.lenientEnv "conf"
    ["a.json", "bad.json"] rfl
    (by
      intro f hf _
      simp only [List.mem_cons, List.mem_singleton, List.not_mem_nil, or_false] at hf
      rcases hf with rfl | rfl
      · exact ⟨[0], rfl⟩
      · exact ⟨[9], rfl⟩)
  exact ⟨by decide, repo, h1,
    (h3 ["a.json"] "bad.json" [] [9] rfl (by decide) rfl).2.2.1 (by simp)⟩

/-- C12: when the directory can be listed and all its `.json` entries read,
and a listed `.json` entry is the last one in listing order whose parsed
definition has a given `Name` (any number of earlier entries may yield the same
`Name`), then the repository returned by `NewFileSystemRepository` holds under
that `Name` the definition parsed from that last entry and nothing else, and
`FindByName` of that `Name` returns it with a `nil` error. -/
theorem C12_last_file_wins (env : Env) (dir : String) (files pre : List String) (f : String)
    (post : List String) (body : Bytes)
    (hlist : env.ReadDir dir = Except.ok files)
    (hread : ∀ g ∈ files, stringsContains g ".json" = true →
      ∃ b, env.ReadFile (env.Join dir g) = Except.ok b)
    (hsplit : files = pre ++ f :: post)
    (hjson : stringsContains f ".json" = true)
    (hbody : env.ReadFile (env.Join dir f) = Except.ok body)
    (hlast : ∀ g ∈ post, stringsContains g ".json" = true →
      ∀ b, env.ReadFile (env.Join dir g) = Except.ok b →
        (parseDefinition env b).Name ≠ (parseDefinition env body).Name) :
    ∃ repo, (NewFileSystemRepository env dir).repo = some repo ∧
      (NewFileSystemRepository env dir).err = none ∧
      repo.FindByName (parseDefinition env body).Name
        = (some (parseDefinition env body), none) ∧
      ∀ v, ((parseDefinition env body).Name, v) ∈ repo.servers.entries →
        v = parseDefinition env body := by
  have hres := NewFileSystemRepository_of_readable env dir files hlist hread
  subst hsplit
  have hget := get_parsed_last env dir pre f post body hjson hbody hlast
  refine ⟨_, by rw [hres], by rw [hres], FindByName_eq_of_get _ _ _ hget, ?_⟩
  intro v hv
  have hv2 := (GoMap.get_eq_some_iff _ _ _).2 hv
  rw [hget] at hv2
  exact (Option.some.inj hv2).symm

/-- C12 instantiated: `first.json` and `second.json` both yield a definition
named `a`; the repository holds the one of `second.json`. -/
theorem C12_last_file_wins_witness :
    ∃ repo, (NewFileSystemRepository Sample.sameNameEnv "conf").repo = some repo ∧
      (NewFileSystemRepository Sample.sameNameEnv "conf").err = none ∧
      repo.FindByName (parseDefinition Sample.sameNameEnv [2]).Name
        = (some (parseDefinition Sample.sameNameEnv [2]), none) ∧
      ∀ v, ((parseDefinition Sample.sameNameEnv [2]).Name, v) ∈ repo.servers.entries →
        v = parseDefinition Sample.sameNameEnv [2] :=
  C12_last_file_wins Sample.sameNameEnv "conf" ["first.json", "second.json"]
    ["first.json"] "second.json" [] [2] rfl
    (by
      intro g hg _
      simp only [List.mem_cons, List.mem_singleton, List.not_mem_nil, or_false] at hg
      rcases hg with rfl | rfl
      · exact ⟨[0], rfl⟩
      · exact ⟨[2], rfl⟩)
    rfl (by decide) rfl (by simp)

/-! ## Lemmas on reachable states -/

theorem keyedByName_of_start (start : FileSystemRepository)
    (hstart : start = ⟨GoMap.empty⟩ ∨
      ∃ env dir, (NewFileSystemRepository env dir).repo = some start) :
    start.KeyedByName := by
  rcases hstart with rfl | ⟨env, dir, h⟩
  · exact FileSystemRepository.keyedByName_empty
  · obtain ⟨files, _, hrepo⟩ := NewFileSystemRepository_repo_eq env dir start h
    rw [hrepo]
    exact FileSystemRepository.keyedByName_addAll _ _ FileSystemRepository.keyedByName_empty

theorem FindAll_names_nodup (r : FileSystemRepository) (it : List (String × OAuth))
    (hkeyed : r.KeyedByName) (hit : r.servers.IterOrder it) :
    ((r.FindAll it).1.map OAuth.Name).Nodup := by
  rw [FindAll_eq]
  have hperm : ((it.map Prod.snd).map OAuth.Name).Perm
      (r.servers.entries.map (fun e => e.2.Name)) := by
    rw [List.map_map]
    exact List.Perm.map _ hit
  exact hperm.nodup_iff.2 (FileSystemRepository.names_nodup_of_keyedByName r hkeyed)

theorem get_of_FindByName (r : FileSystemRepository) (n : String) (d : OAuth)
    (h : r.FindByName n = (some d, none)) : r.servers.get n = some d := by
  unfold FileSystemRepository.FindByName at h
  cases hg : r.servers.get n with
  | none => rw [hg] at h; simp at h
  | some v =>
    rw [hg] at h
    simp only [Prod.mk.injEq, Option.some.injEq, and_true] at h
    rw [h]

theorem FindByName_ok_iff_hasKey (r : FileSystemRepository) (n : String) :
    (r.FindByName n).2 = none ↔ r.servers.HasKey n := by
  unfold FileSystemRepository.FindByName
  cases hg : r.servers.get n with
  | none =>
    have hk := (GoMap.get_eq_none_iff r.servers n).1 hg
    simp [hk]
  | some v =>
    have hk := (GoMap.hasKey_iff_get r.servers n).2 ⟨v, hg⟩
    simp [hk]

/-! ## Invariants, frames and the token URL scan -/

/-- C13: in every state reached from the empty repository, or from a repository
returned by `NewFileSystemRepository`, by any sequence of `Add` and `Remove`
calls, the names of the definitions returned by `FindAll` are pairwise
distinct, whatever the iteration order: no two of them share a `Name`. -/
theorem C13_findAll_names_distinct (start : FileSystemRepository) (calls : List Call)
    (it : List (String × OAuth))
    (hstart : start = ⟨GoMap.empty⟩ ∨
      ∃ env dir, (NewFileSystemRepository env dir).repo = some start)
    (hit : (start.run calls).servers.IterOrder it) :
    (((start.run calls).FindAll it).1.map OAuth.Name).Nodup :=
  FindAll_names_nodup _ it
    (FileSystemRepository.keyedByName_run start calls (keyedByName_of_start start hstart)) hit

/-- C13 instantiated: `oldA`, `defB`, then `newA` (named like `oldA`) added to
the empty repository. -/
theorem C13_findAll_names_distinct_witness :
    (((Sample.emptyRepo.run
        [Call.add Sample.oldA, Call.add Sample.defB, Call.add Sample.newA]).FindAll
          [("a", Sample.newA), ("b", Sample.defB)]).1.map OAuth.Name).Nodup :=
  C13_findAll_names_distinct Sample.emptyRepo
    [Call.add Sample.oldA, Call.add Sample.defB, Call.add Sample.newA]
    [("a", Sample.newA), ("b", Sample.defB)] (Or.inl rfl)
    (by unfold GoMap.IterOrder; decide)

/-- C14: in every state and for every definition, whatever its contents, `Add`
returns `nil` and the mapping then holds that definition under its `Name`.
Hence in `NewFileSystemRepository` an iteration whose read succeeded always
goes on to the next entry with the definition added, and every error the
constructor returns is the error of the listing or of a failed read. -/
theorem C14_add_always_succeeds (r : FileSystemRepository) (server : OAuth) :
    (r.Add server).2 = none ∧
    (r.Add server).1.servers.get server.Name = some server ∧
    (r.Add server).1.FindByName server.Name = (some server, none) ∧
    (∀ env dir f rest reads body, stringsContains f ".json" = true →
      env.ReadFile (env.Join dir f) = Except.ok body →
      loadFiles env dir (f :: rest) r reads
        = loadFiles env dir rest (r.Add (parseDefinition env body)).1
            (reads ++ [env.Join dir f])) ∧
    (∀ env dir e, (NewFileSystemRepository env dir).err = some e →
      env.ReadDir dir = Except.error e ∨
      ∃ files, env.ReadDir dir = Except.ok files ∧
        ∃ f ∈ files, stringsContains f ".json" = true ∧
          env.ReadFile (env.Join dir f) = Except.error e) := by
  refine ⟨rfl, GoMap.get_set_self _ _ _,
    FindByName_eq_of_get _ _ _ (GoMap.get_set_self _ _ _), ?_, ?_⟩
  · intro env dir f rest reads body hjson hbody
    exact loadFiles_read_ok env dir f rest r reads body hjson hbody
  · intro env dir e herr
    cases hlist : env.ReadDir dir with
    | error e0 =>
      have hres : NewFileSystemRepository env dir = ⟨none, some e0, []⟩ := by
        simp [NewFileSystemRepository, hlist]
      rw [hres] at herr
      exact Or.inl (by rw [Option.some.inj herr])
    | ok files =>
      have hres : NewFileSystemRepository env dir
          = loadFiles env dir files ⟨GoMap.empty⟩ [] := by
        simp [NewFileSystemRepository, hlist]
      rw [hres] at herr
      rcases loadFiles_cases env dir files ⟨GoMap.empty⟩ [] with
        ⟨_, repo2, h2⟩ | ⟨f, hf, hj, e2, he2, _, h2⟩
      · rw [h2] at herr; cases herr
      · rw [h2] at herr
        exact Or.inr ⟨files, rfl, f, hf, hj, by rw [← Option.some.inj herr]; exact he2⟩

/-- C15: for every iteration order of the mapping, written as the entries
visited before `e`, then `e`, then the rest, where `e` is the earliest entry
whose `Endpoints.Token.UpstreamURL` equals `u.String()`, `FindByTokenURL(u)`
returns the definition of `e` with a `nil` error, and `e` is an entry of the
mapping. -/
theorem C15_findByTokenURL_earliest (r : FileSystemRepository) (u : URL)
    (it pre : List (String × OAuth)) (e : String × OAuth) (post : List (String × OAuth))
    (hit : r.servers.IterOrder it) (hsplit : it = pre ++ e :: post)
    (hpre : ∀ x ∈ pre, x.2.Endpoints.Token.UpstreamURL ≠ u.String)
    (he : e.2.Endpoints.Token.UpstreamURL = u.String) :
    r.FindByTokenURL it u = (some e.2, none) ∧ e ∈ r.servers.entries := by
  subst hsplit
  constructor
  · unfold FileSystemRepository.FindByTokenURL
    clear hit
    induction pre with
    | nil => simp [FileSystemRepository.scanTokenURL, he]
    | cons x pre ih =>
      have hx := hpre x (List.mem_cons_self x pre)
      rw [List.cons_append]
      simp only [FileSystemRepository.scanTokenURL, hx, if_false]
      exact ih (fun y hy => hpre y (List.mem_cons_of_mem x hy))
  · exact (List.Perm.mem_iff hit).1 (List.mem_append_right _ (List.mem_cons_self e post))

/-- C15 instantiated: `sharedA` and `sharedB` have the same upstream token URL;
an iteration that visits `sharedB` before `sharedA` returns `sharedB`. -/
theorem C15_findByTokenURL_earliest_witness :
    ((Sample.repoB.Add Sample.sharedA).1.Add Sample.sharedB).1.FindByTokenURL
        [("b", Sample.sharedB), ("a", Sample.sharedA)] ⟨"http://auth.shared/token"⟩
      = (some Sample.sharedB, none) ∧
    ("b", Sample.sharedB) ∈ ((Sample.repoB.Add Sample.sharedA).1.Add Sample.sharedB).1.servers.entries :=
  C15_findByTokenURL_earliest ((Sample.repoB.Add Sample.sharedA).1.Add Sample.sharedB).1
    ⟨"http://auth.shared/token"⟩ [("b", Sample.sharedB), ("a", Sample.sharedA)]
    [] ("b", Sample.sharedB) [("a", Sample.sharedA)]
    (by unfold GoMap.IterOrder; decide) rfl (by simp) (by decide)

/-- The result of `FindByTokenURL` depends on the iteration order when two
stored definitions share the upstream token URL. -/
theorem findByTokenURL_order_dependent :
    ((Sample.emptyRepo.Add Sample.sharedA).1.Add Sample.sharedB).1.FindByTokenURL
        [("a", Sample.sharedA), ("b", Sample.sharedB)] ⟨"http://auth.shared/token"⟩
      = (some Sample.sharedA, none) ∧
    ((Sample.emptyRepo.Add Sample.sharedA).1.Add Sample.sharedB).1.FindByTokenURL
        [("b", Sample.sharedB), ("a", Sample.sharedA)] ⟨"http://auth.shared/token"⟩
      = (some Sample.sharedB, none) := by
  constructor <;> decide

/-- C16: when the stored definitions whose `Endpoints.Token.UpstreamURL` equals
`u.String()` are all one and the same definition, any two iteration orders of
the mapping give `FindByTokenURL(u)` the same result, and if such a definition
is stored that result is this definition with a `nil` error. -/
theorem C16_findByTokenURL_order_independent (r : FileSystemRepository) (u : URL)
    (it1 it2 : List (String × OAuth))
    (h1 : r.servers.IterOrder it1) (h2 : r.servers.IterOrder it2)
    (huniq : ∀ e1 ∈ r.servers.entries, ∀ e2 ∈ r.servers.entries,
      e1.2.Endpoints.Token.UpstreamURL = u.String →
      e2.2.Endpoints.Token.UpstreamURL = u.String → e1.2 = e2.2) :
    r.FindByTokenURL it1 u = r.FindByTokenURL it2 u ∧
    (∀ k d, (k, d) ∈ r.servers.entries → d.Endpoints.Token.UpstreamURL = u.String →
      r.FindByTokenURL it1 u = (some d, none)) := by
  have key : ∀ it, r.servers.IterOrder it → ∀ k d, (k, d) ∈ r.servers.entries →
      d.Endpoints.Token.UpstreamURL = u.String → r.FindByTokenURL it u = (some d, none) := by
    intro it hit k d hkd hd
    unfold FileSystemRepository.FindByTokenURL
    rcases scanTokenURL_cases u.String it with ⟨e, he, hu, hr⟩ | ⟨hall, _⟩
    · rw [hr, huniq e ((List.Perm.mem_iff hit).1 he) (k, d) hkd hu hd]
    · exact absurd hd (hall (k, d) ((List.Perm.mem_iff hit).2 hkd))
  refine ⟨?_, key it1 h1⟩
  rcases scanTokenURL_cases u.String it1 with ⟨e, he, hu, _⟩ | ⟨hall1, hr1⟩
  · have hmem := (List.Perm.mem_iff h1).1 he
    rw [key it1 h1 e.1 e.2 hmem hu, key it2 h2 e.1 e.2 hmem hu]
  · rcases scanTokenURL_cases u.String it2 with ⟨e, he, hu, _⟩ | ⟨_, hr2⟩
    · exact absurd hu (hall1 e ((List.Perm.mem_iff h1).2 ((List.Perm.mem_iff h2).1 he)))
    · unfold FileSystemRepository.FindByTokenURL
      rw [hr1, hr2]

/-- C16 instantiated: `oldA` and `defB` have different upstream token URLs; both
iteration orders find `defB` for its URL. -/
theorem C16_findByTokenURL_order_independent_witness :
    (Sample.repoB.Add Sample.oldA).1.FindByTokenURL
        [("b", Sample.defB), ("a", Sample.oldA)] ⟨"http://auth.b/token"⟩
      = (Sample.repoB.Add Sample.oldA).1.FindByTokenURL
        [("a", Sample.oldA), ("b", Sample.defB)] ⟨"http://auth.b/token"⟩ ∧
    (∀ k d, (k, d) ∈ (Sample.repoB.Add Sample.oldA).1.servers.entries →
      d.Endpoints.Token.UpstreamURL = (URL.mk "http://auth.b/token").String →
      (Sample.repoB.Add Sample.oldA).1.FindByTokenURL
        [("b", Sample.defB), ("a", Sample.oldA)] ⟨"http://auth.b/token"⟩ = (some d, none)) :=
  C16_findByTokenURL_order_independent (Sample.repoB.Add Sample.oldA).1
    ⟨"http://auth.b/token"⟩ [("b", Sample.defB), ("a", Sample.oldA)]
    [("a", Sample.oldA), ("b", Sample.defB)]
    (by unfold GoMap.IterOrder; decide) (by unfold GoMap.IterOrder; decide) (by decide)

/-- C18: in every state reached from the empty repository, or from a repository
returned by `NewFileSystemRepository`, by any sequence of `Add` and `Remove`
calls, every entry of the mapping sits under the key equal to the `Name` of its
definition; hence whenever `FindByName(n)` returns a definition with a `nil`
error, that definition has `Name` equal to `n`. -/
theorem C18_entries_keyed_by_name (start : FileSystemRepository) (calls : List Call)
    (hstart : start = ⟨GoMap.empty⟩ ∨
      ∃ env dir, (NewFileSystemRepository env dir).repo = some start) :
    (∀ k d, (k, d) ∈ (start.run calls).servers.entries → k = d.Name) ∧
    (∀ n d, (start.run calls).FindByName n = (some d, none) → d.Name = n) := by
  have hkeyed := FileSystemRepository.keyedByName_run start calls
    (keyedByName_of_start start hstart)
  refine ⟨fun k d hkd => hkeyed (k, d) hkd, ?_⟩
  intro n d hfind
  have hmem := (GoMap.get_eq_some_iff _ _ _).1 (get_of_FindByName _ n d hfind)
  exact (hkeyed (n, d) hmem).symm

/-- C18 instantiated: the repository loaded from `conf`, then `Remove("a")` and
`Add(newA)`. -/
theorem C18_entries_keyed_by_name_witness :
    (∀ k d, (k, d) ∈ ((⟨⟨[("a", Sample.oldA), ("b", Sample.defB)], by simp⟩⟩ :
        FileSystemRepository).run [Call.remove "a", Call.add Sample.newA]).servers.entries →
      k = d.Name) ∧
    (∀ n d, ((⟨⟨[("a", Sample.oldA), ("b", Sample.defB)], by simp⟩⟩ :
        FileSystemRepository).run [Call.remove "a", Call.add Sample.newA]).FindByName n
          = (some d, none) → d.Name = n) :=
  C18_entries_keyed_by_name ⟨⟨[("a", Sample.oldA), ("b", Sample.defB)], by simp⟩⟩
    [Call.remove "a", Call.add Sample.newA]
    (Or.inr ⟨Sample.confEnv, "conf", rfl⟩)

/-- C19: `Add` and `Remove` change only the entry of their own key: for every
state, `FindByName(m)` gives the same result before and after `Add(D)` when `m`
differs from `D.Name`, and the same result before and after `Remove(n)` when
`m` differs from `n`. -/
theorem C19_add_remove_frame (r : FileSystemRepository) (D : OAuth) (n m : String)
    (hadd : m ≠ D.Name) (hrem : m ≠ n) :
    (r.Add D).1.FindByName m = r.FindByName m ∧
    (r.Remove n).1.FindByName m = r.FindByName m := by
  constructor
  · unfold FileSystemRepository.FindByName FileSystemRepository.Add
    simp only
    rw [GoMap.get_set_of_ne r.servers D.Name m D hadd]
  · unfold FileSystemRepository.FindByName FileSystemRepository.Remove
    simp only
    rw [GoMap.get_delete_of_ne r.servers n m hrem]

/-- C19 instantiated: adding `oldA` or removing `a` does not change what
`FindByName("b")` returns on a repository holding `defB`. -/
theorem C19_add_remove_frame_witness :
    (Sample.repoB.Add Sample.oldA).1.FindByName "b" = Sample.repoB.FindByName "b" ∧
    (Sample.repoB.Remove "a").1.FindByName "b" = Sample.repoB.FindByName "b" :=
  C19_add_remove_frame Sample.repoB Sample.oldA "a" "b" (by decide) (by decide)

/-- C20: in every state reached from the empty repository by `Add` and `Remove`
calls and for every iteration order, a definition `D` occurs in the sequence
returned by `FindAll` exactly when `FindByName(D.Name)` returns `D` with a
`nil` error, and the length of that sequence is the number of names for which
`FindByName` returns a `nil` error. -/
theorem C20_findAll_agrees_with_findByName (calls : List Call) (it : List (String × OAuth))
    (hit : ((⟨GoMap.empty⟩ : FileSystemRepository).run calls).servers.IterOrder it) :
    (∀ D, D ∈ (((⟨GoMap.empty⟩ : FileSystemRepository).run calls).FindAll it).1 ↔
      ((⟨GoMap.empty⟩ : FileSystemRepository).run calls).FindByName D.Name = (some D, none)) ∧
    ∃ names : Finset String,
      (∀ n, n ∈ names ↔
        (((⟨GoMap.empty⟩ : FileSystemRepository).run calls).FindByName n).2 = none) ∧
      (((⟨GoMap.empty⟩ : FileSystemRepository).run calls).FindAll it).1.length = names.card := by
  have hkeyed := FileSystemRepository.keyedByName_run ⟨GoMap.empty⟩ calls
    FileSystemRepository.keyedByName_empty
  constructor
  · intro D
    rw [mem_FindAll _ _ hit]
    constructor
    · rintro ⟨k, hk⟩
      have hkn : k = D.Name := hkeyed (k, D) hk
      subst hkn
      exact FindByName_eq_of_get _ _ _ ((GoMap.get_eq_some_iff _ _ _).2 hk)
    · intro h
      exact ⟨D.Name, (GoMap.get_eq_some_iff _ _ _).1 (get_of_FindByName _ _ _ h)⟩
  · refine ⟨(((⟨GoMap.empty⟩ : FileSystemRepository).run calls).servers.entries.map
      Prod.fst).toFinset, ?_, ?_⟩
    · intro n
      rw [List.mem_toFinset, FindByName_ok_iff_hasKey]
      rfl
    · rw [List.toFinset_card_of_nodup
        ((⟨GoMap.empty⟩ : FileSystemRepository).run calls).servers.nodup, FindAll_eq]
      simp only [List.length_map]
      exact hit.length_eq

/-- C20 instantiated: `oldA`, `defB` added and `a` removed again. -/
theorem C20_findAll_agrees_with_findByName_witness :
    (∀ D, D ∈ (((⟨GoMap.empty⟩ : FileSystemRepository).run
        [Call.add Sample.oldA, Call.add Sample.defB, Call.remove "a"]).FindAll
          [("b", Sample.defB)]).1 ↔
      ((⟨GoMap.empty⟩ : FileSystemRepository).run
        [Call.add Sample.oldA, Call.add Sample.defB, Call.remove "a"]).FindByName D.Name
          = (some D, none)) ∧
    ∃ names : Finset String,
      (∀ n, n ∈ names ↔
        (((⟨GoMap.empty⟩ : FileSystemRepository).run
          [Call.add Sample.oldA, Call.add Sample.defB, Call.remove "a"]).FindByName n).2
            = none) ∧
      (((⟨GoMap.empty⟩ : FileSystemRepository).run
        [Call.add Sample.oldA, Call.add Sample.defB, Call.remove "a"]).FindAll
          [("b", Sample.defB)]).1.length = names.card :=
  C20_findAll_agrees_with_findByName
    [Call.add Sample.oldA, Call.add Sample.defB, Call.remove "a"] [("b", Sample.defB)]
    (by unfold GoMap.IterOrder; decide)

end oauth
